import Mathlib

/-!
# A verification model of the sorbus green tree library

This file gives a shallow embedding, in Lean 4, of the core of the `sorbus`
lossless-syntax-tree library (`src/green/{token,node,element,children,builder,
tree_builder}.rs` and `src/green/serde/{ser,de}.rs`), and proves or refutes a
set of claims about it.

Modelling conventions:
* Machine integers (`u16` kinds, `u32` text sizes, `usize` indices) are
  modelled as `Nat`.  The places where the Rust code guards its integer
  ranges by panicking asserts (`text too long`, `more children than fit in
  one node`) are noted at the corresponding definitions; panics are modelled
  by `Option`/hypotheses, never by wrapping.
* Heap pointers are modelled as numeric ids (`Ptr`); Rust `Arc` pointer
  equality is id equality.
* The alternating full/half aligned element layout of `element.rs` is
  modelled by a `physFull : Bool` tag on each stored child slot (the parity
  of the slot's address), and a typed read (`Slot.readAs`) that yields
  `none` when a slot is decoded at the wrong alignment (undefined behaviour
  in the Rust source).
-/

namespace Sorbus

/-- Model of `Kind` from `src/utils.rs`: a raw `u16` kind tag, never interpreted by
the core. -/
structure Kind where
  val : Nat
  deriving DecidableEq, Repr

/-- Model of `TextSize` (`u32` byte offset / length) modelled as `Nat`. -/
abbrev TextSize := Nat

/-- An erased, tagged child handle (`Union2<Arc<Node>, Arc<Token>>` from
`element.rs`): the low tag bit distinguishes node from token, the rest is
the allocation address, modelled as an id. -/
inductive Ptr where
  | node (id : Nat)
  | token (id : Nat)
  deriving DecidableEq, Repr

/-! ## Token (`src/green/token.rs`)

A token stores `text_len : u32`, `kind : u16` and a trailing byte array.
For an ordinary token (`Token::new`) the byte array is the UTF-8 text and
`text_len` is its byte length.  For a thunk (`Token::new_thunk`) the byte
array is the single byte `0xFF` and `text_len` is the represented length.
We model the trailing byte array by `TokenRaw`. -/

/-- The trailing byte array of a token: either the UTF-8 bytes of a string,
or the single marker byte `0xFF` written by `Token::new_thunk`. -/
inductive TokenRaw where
  | utf8 (s : String)
  | thunkByte
  deriving DecidableEq, Repr

/-- A green token object (`struct Token` in `token.rs`). -/
structure Token where
  kind : Kind
  textLen : TextSize
  raw : TokenRaw
  deriving DecidableEq, Repr

/-- Byte length of the trailing array (`self.text.len()` on the stored
`[u8]`). -/
def TokenRaw.rawLen : TokenRaw → Nat
  | .utf8 s => s.utf8ByteSize
  | .thunkByte => 1

/-- Model of `Token::new(kind, text)`: stores `text_len = text.len()` (the Rust code
faults via `TextSize::try_from(len).expect("text too long")` when the byte
length exceeds `u32::MAX`; theorems about `Token::new` carry that bound as a
hypothesis) and copies the UTF-8 bytes. -/
def Token.new (kind : Kind) (text : String) : Token :=
  { kind := kind, textLen := text.utf8ByteSize, raw := .utf8 text }

/-- Model of `Token::new_thunk(kind, len)`: stores the represented length and the
single byte `0xFF` (asserts `len > 0` in the source).  No code path in the
library calls it. -/
def Token.newThunk (kind : Kind) (len : TextSize) : Token :=
  { kind := kind, textLen := len, raw := .thunkByte }

/-- Model of `Token::is_thunk`: `self.text.len() != self.text_len`. -/
def Token.isThunk (t : Token) : Bool :=
  t.raw.rawLen != t.textLen

/-- Model of `Token::text`: `None` for a thunk, otherwise the stored bytes viewed as
a `&str`.  (If a thunk had `text_len == 1` the Rust code would call
`str::from_utf8_unchecked` on the invalid byte `0xFF`, which is undefined
behaviour; we model that unreachable arm as `none` as well.) -/
def Token.text (t : Token) : Option String :=
  if t.isThunk then none
  else
    match t.raw with
    | .utf8 s => some s
    | .thunkByte => none

/-- Model of `Token::len`: the stored `text_len`. -/
def Token.len (t : Token) : TextSize :=
  t.textLen

/-! ## Element slots and node construction (`src/green/element.rs`,
`src/green/node.rs`)

A node's trailing array stores one `Element` per child.  On a 64-bit target
an element at an 8-byte-aligned address stores `(ptr, offset)`
(full-aligned) and an element at an 8-mod-4 address stores `(offset, ptr)`
(half-aligned); the reader must decode with the layout matching the slot's
own address.  The children array starts 8-aligned, so slot `i` is
full-aligned exactly when `i` is even.  We record the slot's physical
alignment in `physFull` and keep the logical contents `(offset, ptr)`. -/

/-- One initialized element slot of a node's children array. -/
structure Slot where
  /-- Model of `true` when the slot sits at an 8-byte-aligned address. -/
  physFull : Bool
  /-- The stored text offset of this child from the start of the node. -/
  offset : TextSize
  /-- The stored (tagged, erased) child pointer. -/
  ptr : Ptr
  deriving DecidableEq, Repr

/-- Reading a slot through `Element::full_aligned`/`Element::half_aligned`
with a claimed alignment: decoding with the wrong layout is undefined
behaviour in the source, modelled as `none`. -/
def Slot.readAs (claimFull : Bool) (s : Slot) : Option (TextSize × Ptr) :=
  if claimFull = s.physFull then some (s.offset, s.ptr) else none

/-- A green node object (`struct Node` in `node.rs`): `children_len` is the
length of `slots`, so it is not stored separately here. -/
structure Node where
  kind : Kind
  textLen : TextSize
  slots : List Slot
  deriving DecidableEq, Repr

/-- The state of `ChildrenWriter` (`node.rs`) while the children array is
being initialized front-to-back: number of slots written, accumulated text
length, and the slots written so far. -/
structure ChildrenWriter where
  len : Nat
  textLen : TextSize
  slots : List Slot
  deriving DecidableEq, Repr

/-- Model of `ChildrenWriter::new`. -/
def ChildrenWriter.empty : ChildrenWriter :=
  { len := 0, textLen := 0, slots := [] }

/-- Model of `ChildrenWriter::push`: records the current `text_len` as the new
slot's offset, adds the child's length, and writes the slot with the layout
selected by the parity of the write index (`FullAlignedElement::write` for
even indices, `HalfAlignedElement::write` for odd ones).  A child is passed
as its handle together with the length read through that handle
(`node.len()` / `token.len()`). -/
def ChildrenWriter.push (w : ChildrenWriter) (child : Ptr × Nat) : ChildrenWriter :=
  { len := w.len + 1
    textLen := w.textLen + child.2
    slots := w.slots ++ [{ physFull := w.len % 2 = 0, offset := w.textLen, ptr := child.1 }] }

/-- Model of `Node::new(kind, children)`: writes every child through the
`ChildrenWriter` and stores the accumulated `text_len` last.  The source
asserts `children.len() <= u16::MAX`; theorems that need it carry that
bound as a hypothesis. -/
def Node.new (kind : Kind) (children : List (Ptr × Nat)) : Node :=
  let w := children.foldl ChildrenWriter.push ChildrenWriter.empty
  { kind := kind, textLen := w.textLen, slots := w.slots }

/-- Model of `Node::len`: the stored `text_len`. -/
def Node.len (n : Node) : TextSize :=
  n.textLen

/-- Sum of the lengths of a child list. -/
def sumLens (children : List (Ptr × Nat)) : Nat :=
  (children.map Prod.snd).sum

/-! ## `Node::index_of_offset` (`node.rs`) and `slice::binary_search_by_key`

`index_of_offset` runs `self.children.binary_search_by_key(&offset, |el|
el.offset())` and maps `Err(index)` to `index - 1`.  The `binary_search_by`
of the `libcore` this crate builds against (the pre-1.52 implementation,
current on the 2020 nightlies the crate pins) is

    let mut size = s.len();
    if size == 0 { return Err(0); }
    let mut base = 0usize;
    while size > 1 {
        let half = size / 2;
        let mid = base + half;
        let cmp = f(&s[mid]);            // key.cmp(&target)
        base = if cmp == Greater { base } else { mid };
        size -= half;
    }
    let cmp = f(&s[base]);
    if cmp == Equal { Ok(base) } else { Err(base + (cmp == Less) as usize) }

which, on runs of equal keys, converges to the last matching index.  We
model it directly; since `size` strictly decreases each turn, we pass it a
second time as structural fuel so that the definition evaluates by kernel
reduction (the spec lemma shows the fuel is never exhausted). -/

/-- The final probe of the pre-1.52 `binary_search_by` once the window has
shrunk to one element: `Ok(base)` on `Equal`, else `Err(base + (cmp ==
Less))`. -/
def binarySearchFinish (keys : List Nat) (target : Nat) (base : Nat) : Nat ⊕ Nat :=
  let k := keys.getD base 0
  if k = target then Sum.inl base
  else if k < target then Sum.inr (base + 1)
  else Sum.inr base

/-- The `while size > 1` loop of the pre-1.52 `binary_search_by`; `fuel`
is an upper bound on `size` making the recursion structural. -/
def binarySearchLoop (keys : List Nat) (target : Nat) :
    Nat → Nat → Nat → Nat ⊕ Nat
  | base, size, fuel + 1 =>
      if 1 < size then
        let half := size / 2
        let mid := base + half
        if target < keys.getD mid 0 then
          binarySearchLoop keys target base (size - half) fuel
        else
          binarySearchLoop keys target mid (size - half) fuel
      else binarySearchFinish keys target base
  | base, _, 0 => binarySearchFinish keys target base

/-- Model of `slice::binary_search_by_key(&target, |el| el.offset())` on the list of
stored element offsets: `Sum.inl i` is `Ok(i)`, `Sum.inr i` is `Err(i)`. -/
def binarySearch (keys : List Nat) (target : Nat) : Nat ⊕ Nat :=
  if keys.length = 0 then Sum.inr 0
  else binarySearchLoop keys target 0 keys.length keys.length

/-- The stored offsets of a node's children, in slot order (each read
through the slot's own alignment, `Element::offset`). -/
def Node.offsets (n : Node) : List Nat :=
  n.slots.map Slot.offset

/-- Model of `Node::index_of_offset`: binary search on the stored offsets, with
`Err(index)` mapped to `index - 1`.  The source first asserts
`offset < self.len()`; theorems about it carry that bound as a
hypothesis. -/
def Node.indexOfOffset (n : Node) (offset : TextSize) : Nat :=
  match binarySearch n.offsets offset with
  | Sum.inl i => i
  | Sum.inr i => i - 1

/-! ## Children iterators (`src/green/children.rs`)

`Children` wraps a slice iterator over the element slots together with a
`full_align` flag giving the physical alignment of the current head.  Every
access path recomputes which alignment to decode a slot with:

* `next` uses `full_align` and toggles it;
* `get(n)` and `nth(n)` use `full_align ^ (n % 2 == 1)`;
* `next_back`/`nth_back` use `full_align ^ (len % 2 == 1)` where `len` is
  the length *after* popping (the popped slot's index relative to the
  head), and leave `full_align` unchanged;
* `count`/`len` delegate to the underlying slice iterator.

Items are `NodeOrToken` borrows of the children, i.e. the slot pointers;
a decode at the wrong alignment (UB in the source) is `none`. -/

/-- Reading just the child pointer of a slot at a claimed alignment
(the `.into()` conversion applied to `element.full_aligned()` /
`element.half_aligned()`). -/
def Slot.readPtrAs (claimFull : Bool) (s : Slot) : Option Ptr :=
  (Slot.readAs claimFull s).map Prod.snd

/-- The `Children` iterator state. -/
structure Children where
  slots : List Slot
  fullAlign : Bool
  deriving DecidableEq, Repr

/-- Model of `Children::new`: starts at the full slice with `full_align = true`
(asserting that the first element, if any, is full-aligned). -/
def Children.new (n : Node) : Children :=
  { slots := n.slots, fullAlign := true }

/-- Model of `Children::next`: decode the head at `full_align`, toggle the flag. -/
def Children.next (c : Children) : Option (Option Ptr × Children) :=
  match c.slots with
  | [] => none
  | s :: rest => some (s.readPtrAs c.fullAlign, { slots := rest, fullAlign := !c.fullAlign })

/-- Model of `Children::next_back`: decode the last slot at
`full_align ^ (len % 2 == 1)` where `len` counts the remaining elements
after popping; `full_align` (the head's alignment) is unchanged. -/
def Children.nextBack (c : Children) : Option (Option Ptr × Children) :=
  match c.slots.getLast? with
  | none => none
  | some s =>
      let lenAfter := c.slots.length - 1
      let claim := c.fullAlign ^^ decide (lenAfter % 2 = 1)
      some (s.readPtrAs claim, { slots := c.slots.dropLast, fullAlign := c.fullAlign })

/-- Model of `Children::get(n)`: decode slot `n` at `full_align ^ (n % 2 == 1)`
without advancing. -/
def Children.get (c : Children) (n : Nat) : Option (Option Ptr) :=
  match c.slots.get? n with
  | none => none
  | some s => some (s.readPtrAs (c.fullAlign ^^ decide (n % 2 = 1)))

/-- Model of `Children::nth(n)`: decode slot `n` at `full_align ^ (n % 2 == 1)`,
advance past it, and set `full_align` to the toggle of the used claim. -/
def Children.nth (c : Children) (n : Nat) : Option (Option Ptr) × Children :=
  match c.slots.get? n with
  | none => (none, { slots := [], fullAlign := c.fullAlign })
  | some s =>
      let claim := c.fullAlign ^^ decide (n % 2 = 1)
      (some (s.readPtrAs claim), { slots := c.slots.drop (n + 1), fullAlign := !claim })

/-- Model of `Iterator::count` (delegates to the underlying slice iterator). -/
def Children.count (c : Children) : Nat :=
  c.slots.length

/-- Model of `ExactSizeIterator::len` (delegates to the underlying slice
iterator). -/
def Children.len (c : Children) : Nat :=
  c.slots.length

/-- The slot-by-slot forward read: decode the head at the current
alignment flag, toggle, continue (the unfolding of repeated `next`). -/
def readSeq (fullAlign : Bool) : List Slot → List (Option Ptr)
  | [] => []
  | s :: rest => s.readPtrAs fullAlign :: readSeq (!fullAlign) rest

/-- The full forward item sequence of the iterator (repeated `next`). -/
def Children.toList (c : Children) : List (Option Ptr) :=
  readSeq c.fullAlign c.slots

/-- The full backward item sequence of the iterator (repeated
`next_back`): head of the result is the first item yielded from the
back. -/
def Children.toListBack (c : Children) : List (Option Ptr) :=
  if hne : c.slots = [] then []
  else
    (c.slots.getLast hne).readPtrAs (c.fullAlign ^^ decide ((c.slots.length - 1) % 2 = 1)) ::
      Children.toListBack { slots := c.slots.dropLast, fullAlign := c.fullAlign }
  termination_by c.slots.length
  decreasing_by
    show c.slots.dropLast.length < c.slots.length
    have hpos : 0 < c.slots.length := List.length_pos.mpr hne
    simp only [List.length_dropLast]
    omega

/-! ## Builder (`src/green/builder.rs`)

The construction cache owns a token pool keyed by `(kind, text)` content
and a node pool keyed by `(kind, children pointer identities)`
(`ThinEqNode`).  Pools are hash tables; we model each as an association
list from allocation id to object, looked up by the key the code hashes
and compares (content for tokens, kind + child pointer ids for nodes —
`ThinEqNode::eq`/`Hash` look only at the kind and the children's
addresses).  Allocation ids are handed out by a counter; `Arc` pointer
equality is id equality. -/

structure Builder where
  nextId : Nat
  tokens : List (Nat × Token)
  nodes : List (Nat × Node)
  deriving DecidableEq, Repr

/-- Model of `Builder::new` / `Builder::default`. -/
def Builder.new : Builder :=
  { nextId := 0, tokens := [], nodes := [] }

/-- Model of `Builder::size`: number of cached elements in both pools. -/
def Builder.size (b : Builder) : Nat :=
  b.nodes.length + b.tokens.length

/-- The length read through a child handle (`node.len()` /
`token.len()` on the pointee).  A dangling id — impossible through the
API — reads 0. -/
def Builder.lenOf (b : Builder) (p : Ptr) : Nat :=
  match p with
  | .token id => (((b.tokens.find? fun e => decide (e.1 = id)).map fun e => e.2.len).getD 0)
  | .node id => (((b.nodes.find? fun e => decide (e.1 = id)).map fun e => e.2.len).getD 0)

/-- The token-pool lookup of `Builder::token`: raw-entry search by content
hash with the predicate `token.kind() == kind && token.text() == text`. -/
def Builder.lookupToken (b : Builder) (k : Kind) (s : String) : Option (Nat × Token) :=
  b.tokens.find? fun e => decide (e.2.kind = k ∧ e.2.text = some s)

/-- Model of `Builder::token`: look up by `(kind, text)` content; on a miss,
allocate `Token::new(kind, text)` and insert it.  Returns the handle (the
allocation id together with the pointee) and the updated builder. -/
def Builder.token (b : Builder) (k : Kind) (s : String) : Nat × Token × Builder :=
  match b.lookupToken k s with
  | some (id, t) => (id, t, b)
  | none =>
      let t := Token.new k s
      (b.nextId, t,
        { b with nextId := b.nextId + 1, tokens := (b.nextId, t) :: b.tokens })

/-- The node-pool lookup of `Builder::cache_node`: raw-entry search with
`ThinEqNode` equality — same kind and pointer-identical children (offsets
and lengths are derived from the children and are not compared). -/
def Builder.lookupNode (b : Builder) (k : Kind) (cs : List Ptr) : Option (Nat × Node) :=
  b.nodes.find? fun e => decide (e.2.kind = k ∧ e.2.slots.map Slot.ptr = cs)

/-- Model of `Builder::cache_node`: probe the pool for the freshly built candidate;
on a hit return the cached handle (the candidate is dropped), otherwise
insert the candidate. -/
def Builder.cacheNode (b : Builder) (n : Node) : Nat × Node × Builder :=
  match b.lookupNode n.kind (n.slots.map Slot.ptr) with
  | some (id, m) => (id, m, b)
  | none =>
      (b.nextId, n,
        { b with nextId := b.nextId + 1, nodes := (b.nextId, n) :: b.nodes })

/-- Model of `Builder::node` / `Builder::node_packed`: construct the node via
`Node::new` (reading each child's length through its handle), then
`cache_node` it. -/
def Builder.node (b : Builder) (k : Kind) (cs : List Ptr) : Nat × Node × Builder :=
  b.cacheNode (Node.new k (cs.map fun p => (p, b.lenOf p)))

/-! ## TreeBuilder (`src/green/tree_builder.rs`)

State: the `Builder` cache, a stack of `(kind, first_child)` frames (top
of the stack at the head of the list), and the flat scratch buffer
`children` in buffer order (index 0 first).  Panics are modelled as
`none`. -/

structure TreeBuilder where
  cache : Builder
  stack : List (Kind × Nat)
  children : List Ptr
  deriving DecidableEq, Repr

/-- Model of `TreeBuilder::new`. -/
def TreeBuilder.new : TreeBuilder :=
  { cache := Builder.new, stack := [], children := [] }

/-- Model of `TreeBuilder::add`: push an element onto the current branch. -/
def TreeBuilder.add (tb : TreeBuilder) (p : Ptr) : TreeBuilder :=
  { tb with children := tb.children ++ [p] }

/-- Model of `TreeBuilder::token`: intern through the cache, then `add`. -/
def TreeBuilder.token (tb : TreeBuilder) (k : Kind) (s : String) : TreeBuilder :=
  let r := tb.cache.token k s
  TreeBuilder.add { tb with cache := r.2.2 } (Ptr.token r.1)

/-- Model of `TreeBuilder::start_node`: push `(kind, children.len())`. -/
def TreeBuilder.startNode (tb : TreeBuilder) (k : Kind) : TreeBuilder :=
  { tb with stack := (k, tb.children.length) :: tb.stack }

/-- Model of `TreeBuilder::checkpoint`: capture `children.len()`. -/
def TreeBuilder.checkpoint (tb : TreeBuilder) : Nat :=
  tb.children.length

/-- Model of `TreeBuilder::finish_node`: pop a frame, drain
`children[first_child..]`, intern a node with the drained children, and
`add` the handle. -/
def TreeBuilder.finishNode (tb : TreeBuilder) : Option TreeBuilder :=
  match tb.stack with
  | [] => none
  | (kind, firstChild) :: rest =>
      let drained := tb.children.drop firstChild
      let r := tb.cache.node kind drained
      some (TreeBuilder.add
        { cache := r.2.2, stack := rest, children := tb.children.take firstChild }
        (Ptr.node r.1))

/-- Model of `TreeBuilder::start_node_at`: assert the checkpoint is within the
buffer and not before the current frame's first child, then push
`(kind, checkpoint)`. -/
def TreeBuilder.startNodeAt (tb : TreeBuilder) (checkpoint : Nat) (k : Kind) :
    Option TreeBuilder :=
  if checkpoint ≤ tb.children.length then
    match tb.stack with
    | (_, firstChild) :: _ =>
        if firstChild ≤ checkpoint then
          some { tb with stack := (k, checkpoint) :: tb.stack }
        else none
    | [] => some { tb with stack := [(k, checkpoint)] }
  else none

/-- Model of `TreeBuilder::finish_node_at`: assert `checkpoint <=
children.len()`; pop a frame `(kind, first_child)`; assert `first_child <=
checkpoint`; drain `children[first_child..checkpoint]` (the buffer keeps
`children[..first_child]` followed by `children[checkpoint..]`); intern a
node with the drained children; `add` the handle (a push at the **end** of
the buffer). -/
def TreeBuilder.finishNodeAt (tb : TreeBuilder) (checkpoint : Nat) : Option TreeBuilder :=
  if checkpoint ≤ tb.children.length then
    match tb.stack with
    | [] => none
    | (kind, firstChild) :: rest =>
        if firstChild ≤ checkpoint then
          let drained := (tb.children.drop firstChild).take (checkpoint - firstChild)
          let r := tb.cache.node kind drained
          some (TreeBuilder.add
            { cache := r.2.2
              stack := rest
              children := tb.children.take firstChild ++ tb.children.drop checkpoint }
            (Ptr.node r.1))
        else none
  else none

/-- Model of `TreeBuilder::finish`: assert the stack is empty and exactly one
element remains; pop and return it as a node handle. -/
def TreeBuilder.finish (tb : TreeBuilder) : Option (Nat × TreeBuilder) :=
  match tb.stack, tb.children with
  | [], [Ptr.node id] => some (id, { tb with children := [] })
  | _, _ => none

/-! ## Serialization (`src/green/serde/ser.rs`, `src/green/serde/de.rs`)

The canonical wire shape is self-describing: a token serializes as
`{kind, text}` and a node as `{kind, children}` where each child is a
tagged `Node(…)`/`Token(…)` element.  We model the wire shape as the tree
`SerTree` (the concrete encoding is an external serde format). -/

/-- The abstract wire shape of a serialized green tree. -/
inductive SerTree where
  | token (kind : Kind) (text : String)
  | node (kind : Kind) (children : List SerTree)

mutual

/-- Height of a wire tree (used as serializer fuel). -/
def SerTree.height : SerTree → Nat
  | .token _ _ => 1
  | .node _ cs => SerTree.heightList cs + 1

/-- Maximum height over a list of wire trees. -/
def SerTree.heightList : List SerTree → Nat
  | [] => 0
  | t :: rest => max t.height (SerTree.heightList rest)

end

mutual

/-- Feeding a `(kind, children, token-text)` construction directly through
a `Builder`, bottom-up and left-to-right: tokens via `Builder::token`,
nodes via `Builder::node` on the handles of the already-built children. -/
def buildSer (b : Builder) : SerTree → Ptr × Builder
  | .token k s =>
      let r := b.token k s
      (Ptr.token r.1, r.2.2)
  | .node k cs =>
      let r := buildSerList b cs
      let r2 := r.2.node k r.1
      (Ptr.node r2.1, r2.2.2)

/-- Build each construction of a list in order, collecting the handles. -/
def buildSerList (b : Builder) : List SerTree → List Ptr × Builder
  | [] => ([], b)
  | t :: rest =>
      let r := buildSer b t
      let r2 := buildSerList r.2 rest
      (r.1 :: r2.1, r2.2)

end

mutual

/-- Model of `ElementSeed`/`TokenSeed`/`NodeSeed` from `de.rs`: a token element is
deserialized straight into `Builder::token(kind, text)`; a node element
deserializes its children into a buffer (`NodeChildrenSeed`) and then
calls `Builder::node(kind, children)`. -/
def deElement (b : Builder) : SerTree → Ptr × Builder
  | .token k s =>
      let r := b.token k s
      (Ptr.token r.1, r.2.2)
  | .node k cs =>
      let r := deChildren b [] cs
      let r2 := r.2.node k r.1
      (Ptr.node r2.1, r2.2.2)

/-- Model of `NodeChildrenSeed`: deserialize the sequence of child elements
left-to-right, pushing each onto a vector. -/
def deChildren (b : Builder) (acc : List Ptr) : List SerTree → List Ptr × Builder
  | [] => (acc, b)
  | t :: rest =>
      let r := deElement b t
      deChildren r.2 (acc ++ [r.1]) rest

end

mutual

/-- Model of `impl Serialize for Node`/`Token` (`ser.rs`), reading the tree through
a builder's heap: a token emits `{kind, text()}` (`none` if the pointee is
missing or a thunk), a node emits `{kind, children}` with each child
serialized through the tagged `Wrap` element.  `fuel` bounds the recursion
depth (children of an interned node always have smaller ids, so any fuel
of at least the tree height suffices). -/
def serOfPtr (b : Builder) : Nat → Ptr → Option SerTree
  | 0, _ => none
  | _ + 1, .token id =>
      match b.tokens.find? fun e => decide (e.1 = id) with
      | none => none
      | some (_, t) =>
          match t.text with
          | some s => some (.token t.kind s)
          | none => none
  | fuel + 1, .node id =>
      match b.nodes.find? fun e => decide (e.1 = id) with
      | none => none
      | some (_, n) =>
          match serChildren b fuel (n.slots.map Slot.ptr) with
          | none => none
          | some cs => some (.node n.kind cs)
  termination_by fuel _ => (fuel, 0)

/-- Serialize a node's children in order. -/
def serChildren (b : Builder) : Nat → List Ptr → Option (List SerTree)
  | _, [] => some []
  | fuel, p :: rest =>
      match serOfPtr b fuel p with
      | none => none
      | some t =>
          match serChildren b fuel rest with
          | none => none
          | some ts => some (t :: ts)
  termination_by fuel l => (fuel, l.length + 1)

end

/-! ### Specification predicates for the round-trip claim -/

mutual

/-- The construction `s` is fully interned in `b` with top handle `p`:
every token of `s` is bound in the token pool, every node of `s` is bound
in the node pool under the handles of its already-interned children, and
`p` is the handle of the root binding. -/
def Interned (b : Builder) : SerTree → Ptr → Prop
  | .token k s, .token id => ∃ t, b.lookupToken k s = some (id, t)
  | .node k cs, .node id =>
      ∃ ids m, InternedList b cs ids ∧ b.lookupNode k ids = some (id, m)
  | _, _ => False

/-- Pointwise `Interned` over a child list. -/
def InternedList (b : Builder) : List SerTree → List Ptr → Prop
  | [], [] => True
  | s :: ss, p :: ps => Interned b s p ∧ InternedList b ss ps
  | _, _ => False

end

/-- Pool-key extension: every key binding of `b` is still looked up
identically in `b'` (pools only gain fresh entries). -/
def BuilderExt (b b' : Builder) : Prop :=
  (∀ k s e, b.lookupToken k s = some e → b'.lookupToken k s = some e) ∧
  (∀ k cs e, b.lookupNode k cs = some e → b'.lookupNode k cs = some e)

/-- The allocation-id invariant the builder maintains: every pooled id was
handed out by the counter, and ids are unique. -/
def BuilderWF (b : Builder) : Prop :=
  (∀ e ∈ b.tokens, e.1 < b.nextId) ∧ (b.tokens.map Prod.fst).Nodup ∧
  (∀ e ∈ b.nodes, e.1 < b.nextId) ∧ (b.nodes.map Prod.fst).Nodup

/-- Heap extension: dereferencing an id (the serializer's view of the
heap) gives the same object in `b'` as in `b`. -/
def HeapExt (b b' : Builder) : Prop :=
  (∀ id e, b.tokens.find? (fun x => decide (x.1 = id)) = some e →
    b'.tokens.find? (fun x => decide (x.1 = id)) = some e) ∧
  (∀ id e, b.nodes.find? (fun x => decide (x.1 = id)) = some e →
    b'.nodes.find? (fun x => decide (x.1 = id)) = some e)

/-! ## Fallible construction (`Node::try_new`, `node.rs`) and the
`ChildrenWriter` drop

`Node::try_new` pulls `Result<PackedNodeOrToken, E>` items from the
children iterator; the first `Err(e)` aborts construction via `?`
(`try_new_slice_dst` then frees the raw allocation without running any
destructor on its contents).  At that point the local `ChildrenWriter` is
dropped; its `Drop` impl runs

    ptr::drop_in_place(ptr::slice_from_raw_parts_mut(self.raw, self.len));

on the already-written prefix of the children array.  The slice's element
type is `Element` — a `union` (`element.rs`) with **no** `Drop` impl.  A
Rust union has no drop glue ("To avoid leaks, must be dropped via
drop_in_place-ing the correct member", says `Element`'s own safety
comment), so this `drop_in_place` releases none of the written child
handles.  We model the set of child handles released by dropping one
`Element` slot as its drop glue, which is therefore empty. -/

/-- The child handles released by `ptr::drop_in_place::<Element>` on one
written slot: `Element` is a `union` without a `Drop` impl, so its drop
glue releases nothing. -/
def Element.dropGlue (_slot : Slot) : List Ptr :=
  []

/-- The child handles released by `ChildrenWriter`'s `Drop` impl:
`drop_in_place` over the written `[Element]` prefix, i.e. the union drop
glue of each written slot. -/
def ChildrenWriter.dropReleases (w : ChildrenWriter) : List Ptr :=
  (w.slots.map Element.dropGlue).flatten

/-- The loop of `Node::try_new` over the fallible children iterator,
carrying the writer state.  Returns the construction result together with
the list of child handles released during cleanup (empty on success: the
written children are transferred into the node). -/
def Node.tryNewGo {E : Type} (kind : Kind) :
    ChildrenWriter → List (Except E (Ptr × Nat)) → Except E Node × List Ptr
  | w, [] => (Except.ok { kind := kind, textLen := w.textLen, slots := w.slots }, [])
  | w, Except.error e :: _ => (Except.error e, w.dropReleases)
  | w, Except.ok c :: rest => Node.tryNewGo kind (w.push c) rest

/-- Model of `Node::try_new(kind, children)` over the list of items the fallible
children iterator yields (the source asserts `children.len() <=
u16::MAX` first). -/
def Node.tryNew {E : Type} (kind : Kind) (children : List (Except E (Ptr × Nat))) :
    Except E Node × List Ptr :=
  Node.tryNewGo kind ChildrenWriter.empty children

/-! ## The garbage collector (`Builder::gc`, `builder.rs`)

`gc` inspects `Arc::strong_count` of every pooled entry.  We model the
relevant heap: objects are numbered by allocation order (so a node's
children always have strictly smaller ids than the node — children exist
before their parent is built), `nodes`/`tokens` are the ids cached in the
two pools, and `ext` counts the external handles per id.  An object is
**alive** when the pool or an external handle retains it, or some alive
node stores it as a child; `Arc::strong_count` of object `i` is then the
number of pool entries for `i`, plus its external handles, plus one per
child slot of an alive node holding `i`. -/

/-- A heap object: an interned node (with the ids of its children, in
slot order) or a token. -/
inductive Obj where
  | nodeObj (children : List Nat)
  | tokenObj
  deriving DecidableEq, Repr

/-- The heap and pool state seen by the collector. -/
structure Pool where
  objs : List Obj
  nodes : List Nat
  tokens : List Nat
  ext : List Nat
  deriving DecidableEq, Repr

/-- External handle count of object `i`. -/
def Pool.extOf (p : Pool) (i : Nat) : Nat :=
  p.ext.getD i 0

/-- The child ids stored in object `i` (none for tokens or out-of-heap
ids). -/
def Pool.childrenOf (p : Pool) (i : Nat) : List Nat :=
  match p.objs.getD i Obj.tokenObj with
  | .nodeObj cs => cs
  | .tokenObj => []

/-- Is object `i` directly retained (by a pool entry or an external
handle)? -/
def Pool.isRoot (p : Pool) (i : Nat) : Bool :=
  p.nodes.contains i || p.tokens.contains i || decide (0 < p.extOf i)

/-- Is object `i` alive: directly retained, or stored as a child of some
alive object with a larger id?  (Parents always have larger ids.)  `fuel`
bounds the parent-chain length and makes the recursion structural; any
fuel of at least `objs.length` is saturating. -/
def Pool.aliveFuel (p : Pool) : Nat → Nat → Bool
  | 0, i => p.isRoot i
  | fuel + 1, i =>
      p.isRoot i ||
        (List.range (p.objs.length - (i + 1))).any fun d =>
          p.aliveFuel fuel (i + 1 + d) && (p.childrenOf (i + 1 + d)).contains i

/-- Is object `i` alive? -/
def Pool.alive (p : Pool) (i : Nat) : Bool :=
  p.aliveFuel p.objs.length i

/-- Model of `Arc::strong_count` of object `i`: external handles, pool entries,
and one per child slot of an alive node that stores `i`. -/
def Pool.strongCount (p : Pool) (i : Nat) : Nat :=
  p.extOf i + p.nodes.count i + p.tokens.count i +
    ((List.range p.objs.length).map fun j =>
      if p.alive j then (p.childrenOf j).count i else 0).sum

/-- Model of `Builder::turn_node_gc`: `drain_filter` keeps the node entries with
`Arc::strong_count > 1` and reports whether anything was removed.  (The
real `drain_filter` evaluates the predicate while it mutates the table, so
a single turn may remove even more than this simultaneous filter; both
iterate to the same fixpoint, which is what `gc` runs to.) -/
def Pool.turnNodeGc (p : Pool) : Pool × Bool :=
  let keep := p.nodes.filter fun id => decide (1 < p.strongCount id)
  ({ p with nodes := keep }, decide (keep.length ≠ p.nodes.length))

/-- Model of `Builder::turn_token_gc`: same single sweep over the token pool. -/
def Pool.turnTokenGc (p : Pool) : Pool × Bool :=
  let keep := p.tokens.filter fun id => decide (1 < p.strongCount id)
  ({ p with tokens := keep }, decide (keep.length ≠ p.tokens.length))

/-- The `while self.turn_node_gc() {}` loop of `Builder::gc`; each
iteration that continues has removed at least one entry, so
`p.nodes.length + 1` fuel is saturating. -/
def Pool.gcNodesFuel (p : Pool) : Nat → Pool
  | 0 => p
  | fuel + 1 =>
      if (p.turnNodeGc).2 then (p.turnNodeGc).1.gcNodesFuel fuel else (p.turnNodeGc).1

/-- Node sweeps run to a fixpoint. -/
def Pool.gcNodes (p : Pool) : Pool :=
  p.gcNodesFuel (p.nodes.length + 1)

/-- Model of `Builder::gc`: node sweeps to a fixpoint, then a single token
sweep. -/
def Pool.gc (p : Pool) : Pool :=
  (p.gcNodes.turnTokenGc).1

/-- Model of `Builder::size` in the collector model. -/
def Pool.size (p : Pool) : Nat :=
  p.nodes.length + p.tokens.length

/-- Do all children ids of an object lie below a bound? -/
def Obj.childrenBelow : Obj → Nat → Bool
  | .nodeObj cs, j => cs.all fun c => decide (c < j)
  | .tokenObj, _ => true

/-- Is the object at id `i` a node? -/
def Pool.isNodeAt (p : Pool) (i : Nat) : Bool :=
  match p.objs.get? i with
  | some (.nodeObj _) => true
  | _ => false

/-- Is the object at id `i` a token? -/
def Pool.isTokenAt (p : Pool) (i : Nat) : Bool :=
  match p.objs.get? i with
  | some .tokenObj => true
  | _ => false

/-- Well-formedness of a collector state, as maintained by the `Builder`:
children were allocated before their parents (smaller ids), each pool
lists distinct ids of objects of its own kind. -/
def Pool.wf (p : Pool) : Bool :=
  ((List.range p.objs.length).all fun j => (p.objs.getD j Obj.tokenObj).childrenBelow j) &&
    decide p.nodes.Nodup && (p.nodes.all fun i => p.isNodeAt i) &&
    decide p.tokens.Nodup && (p.tokens.all fun i => p.isTokenAt i)

/-- No external handles remain: every handle the builder handed out has
been dropped. -/
def Pool.noExternal (p : Pool) : Bool :=
  p.ext.all fun x => decide (x = 0)

/-! ### The shape of the written slots

`writerSlots startLen startOff children` is the slot list produced by
pushing `children` into a writer whose state is already `startLen` slots
and `startOff` accumulated text length. -/

/-- Slots produced by the writer from a given starting state. -/
def writerSlots (startLen : Nat) (startOff : TextSize) :
    List (Ptr × Nat) → List Slot
  | [] => []
  | c :: rest =>
      { physFull := startLen % 2 = 0, offset := startOff, ptr := c.1 } ::
        writerSlots (startLen + 1) (startOff + c.2) rest

theorem sumLens_cons (c : Ptr × Nat) (rest : List (Ptr × Nat)) :
    sumLens (c :: rest) = c.2 + sumLens rest := by
  simp [sumLens]

theorem foldl_push_spec (children : List (Ptr × Nat)) (w : ChildrenWriter) :
    children.foldl ChildrenWriter.push w =
      { len := w.len + children.length
        textLen := w.textLen + sumLens children
        slots := w.slots ++ writerSlots w.len w.textLen children } := by
  induction children generalizing w with
  | nil => simp [sumLens, writerSlots]
  | cons c rest ih =>
      simp only [List.foldl_cons, ih, ChildrenWriter.push, writerSlots,
        ChildrenWriter.mk.injEq, List.length_cons, sumLens_cons]
      refine ⟨by omega, ?_, by simp⟩
      rw [Nat.add_assoc]

theorem writerSlots_length (startLen : Nat) (startOff : TextSize)
    (children : List (Ptr × Nat)) :
    (writerSlots startLen startOff children).length = children.length := by
  induction children generalizing startLen startOff with
  | nil => rfl
  | cons c rest ih => simp [writerSlots, ih]

theorem writerSlots_get (startLen : Nat) (startOff : TextSize)
    (children : List (Ptr × Nat)) (i : Nat) (hi : i < children.length) :
    (writerSlots startLen startOff children).get? i =
      some { physFull := (startLen + i) % 2 = 0
             offset := startOff + sumLens (children.take i)
             ptr := (children.get ⟨i, hi⟩).1 } := by
  induction children generalizing startLen startOff i with
  | nil => simp at hi
  | cons c rest ih =>
      cases i with
      | zero => simp [writerSlots, sumLens]
      | succ j =>
          have hj : j < rest.length := by simpa using hi
          simp only [writerSlots, List.get?_cons_succ, ih _ _ j hj]
          have : startLen + 1 + j = startLen + (j + 1) := by omega
          simp [this, sumLens, Nat.add_assoc]

/-- The slots of a freshly constructed node: slot `i` is full-aligned iff
`i` is even, stores the prefix sum of the earlier children's lengths as its
offset, and stores the `i`-th child handle. -/
theorem node_new_slots_get (kind : Kind) (children : List (Ptr × Nat)) (i : Nat)
    (hi : i < children.length) :
    (Node.new kind children).slots.get? i =
      some { physFull := i % 2 = 0
             offset := sumLens (children.take i)
             ptr := (children.get ⟨i, hi⟩).1 } := by
  simp only [Node.new, foldl_push_spec, ChildrenWriter.empty]
  simpa using writerSlots_get 0 0 children i hi

theorem node_new_textLen (kind : Kind) (children : List (Ptr × Nat)) :
    (Node.new kind children).textLen = sumLens children := by
  simp [Node.new, foldl_push_spec, ChildrenWriter.empty]

theorem node_new_slots_length (kind : Kind) (children : List (Ptr × Nat)) :
    (Node.new kind children).slots.length = children.length := by
  simp [Node.new, foldl_push_spec, ChildrenWriter.empty, writerSlots_length]

/-! ### Prefix sums of child lengths -/

theorem sumLens_append (a b : List (Ptr × Nat)) :
    sumLens (a ++ b) = sumLens a + sumLens b := by
  simp [sumLens]

theorem sumLens_take_succ (cs : List (Ptr × Nat)) (i : Nat) (hi : i < cs.length) :
    sumLens (cs.take (i + 1)) = sumLens (cs.take i) + (cs.get ⟨i, hi⟩).2 := by
  rw [List.take_succ]
  rw [sumLens_append]
  have h2 : cs[i]? = some cs[i] := List.getElem?_eq_getElem hi
  simp [h2, sumLens, List.get_eq_getElem]

theorem sumLens_take_mono (cs : List (Ptr × Nat)) {i j : Nat} (h : i ≤ j) :
    sumLens (cs.take i) ≤ sumLens (cs.take j) := by
  have : cs.take j = cs.take i ++ (cs.drop i).take (j - i) := by
    have := List.take_add cs i (j - i)
    rw [Nat.add_sub_cancel' h] at this
    exact this
  rw [this, sumLens_append]
  omega

theorem sumLens_take_le (cs : List (Ptr × Nat)) (i : Nat) :
    sumLens (cs.take i) ≤ sumLens cs := by
  conv_rhs => rw [← List.take_append_drop i cs]
  rw [sumLens_append]
  omega

theorem node_new_offsets_length (kind : Kind) (cs : List (Ptr × Nat)) :
    (Node.new kind cs).offsets.length = cs.length := by
  simp [Node.offsets, node_new_slots_length]

theorem node_new_offsets_getD (kind : Kind) (cs : List (Ptr × Nat)) (i : Nat)
    (hi : i < cs.length) :
    (Node.new kind cs).offsets.getD i 0 = sumLens (cs.take i) := by
  have hs := node_new_slots_get kind cs i hi
  simp [Node.offsets, List.getD_eq_getElem?_getD, List.getElem?_map]
  rw [← List.get?_eq_getElem?, hs]
  rfl

theorem node_new_offsets_sorted (kind : Kind) (cs : List (Ptr × Nat)) :
    ∀ i j : Nat, i ≤ j → j < (Node.new kind cs).offsets.length →
      (Node.new kind cs).offsets.getD i 0 ≤ (Node.new kind cs).offsets.getD j 0 := by
  intro i j hij hj
  rw [node_new_offsets_length] at hj
  rw [node_new_offsets_getD kind cs i (lt_of_le_of_lt hij hj),
    node_new_offsets_getD kind cs j hj]
  exact sumLens_take_mono cs hij

/-! ### Correctness of the pre-1.52 binary search -/

theorem binarySearchFinish_spec (keys : List Nat) (target base : Nat)
    (hlen : base + 1 ≤ keys.length)
    (h3 : ∀ j, base + 1 ≤ j → j < keys.length → target < keys.getD j 0)
    (h5 : base = 0 ∨ keys.getD base 0 ≤ target) :
    (∀ i, binarySearchFinish keys target base = Sum.inl i →
        i < keys.length ∧ keys.getD i 0 = target ∧
          ∀ j, i < j → j < keys.length → target < keys.getD j 0) ∧
    (∀ i, binarySearchFinish keys target base = Sum.inr i →
        i ≤ keys.length ∧
        (∀ j, i ≤ j → j < keys.length → target < keys.getD j 0) ∧
        (i = 0 ∨ keys.getD (i - 1) 0 < target)) := by
  unfold binarySearchFinish
  by_cases heq : keys.getD base 0 = target
  · simp only [heq, if_pos rfl]
    constructor
    · intro i hi
      cases hi
      refine ⟨by omega, heq, ?_⟩
      intro j hj hjlen
      exact h3 j (by omega) hjlen
    · intro i hi
      cases hi
  · simp only [if_neg heq]
    by_cases hlt : keys.getD base 0 < target
    · simp only [if_pos hlt]
      constructor
      · intro i hi
        cases hi
      · intro i hi
        cases hi
        refine ⟨by omega, ?_, Or.inr (by simpa using hlt)⟩
        intro j hj hjlen
        exact h3 j hj hjlen
    · simp only [if_neg hlt]
      have hbase0 : base = 0 := by
        rcases h5 with h | h
        · exact h
        · omega
      constructor
      · intro i hi
        cases hi
      · intro i hi
        cases hi
        refine ⟨by omega, ?_, Or.inl hbase0⟩
        intro j hj hjlen
        rcases Nat.eq_or_lt_of_le hj with hj0 | hj1
        · subst hbase0
          rw [← hj0]
          omega
        · exact h3 j (by omega) hjlen

theorem binarySearchLoop_spec (keys : List Nat) (target : Nat)
    (hs : ∀ i j : Nat, i ≤ j → j < keys.length →
      keys.getD i 0 ≤ keys.getD j 0) :
    ∀ fuel base size, 1 ≤ size → size ≤ fuel → base + size ≤ keys.length →
      (∀ j, base + size ≤ j → j < keys.length → target < keys.getD j 0) →
      (base = 0 ∨ keys.getD base 0 ≤ target) →
      (∀ i, binarySearchLoop keys target base size fuel = Sum.inl i →
          i < keys.length ∧ keys.getD i 0 = target ∧
            ∀ j, i < j → j < keys.length → target < keys.getD j 0) ∧
      (∀ i, binarySearchLoop keys target base size fuel = Sum.inr i →
          i ≤ keys.length ∧
          (∀ j, i ≤ j → j < keys.length → target < keys.getD j 0) ∧
          (i = 0 ∨ keys.getD (i - 1) 0 < target)) := by
  intro fuel
  induction fuel with
  | zero =>
      intro base size h1 h2 h3 h4 h5
      omega
  | succ fuel ih =>
      intro base size h1 h2 h3 h4 h5
      rw [binarySearchLoop]
      by_cases hgt : 1 < size
      · simp only [if_pos hgt]
        have hhalf1 : 1 ≤ size / 2 := by omega
        have hhalflt : size / 2 < size := by omega
        have hdouble : size / 2 ≤ size - size / 2 := by omega
        by_cases hcmp : target < keys.getD (base + size / 2) 0
        · simp only [if_pos hcmp]
          apply ih base (size - size / 2) (by omega) (by omega) (by omega)
          · intro j hj hjlen
            have hmid : base + size / 2 ≤ j := by omega
            exact lt_of_lt_of_le hcmp (hs (base + size / 2) j hmid hjlen)
          · exact h5
        · simp only [if_neg hcmp]
          apply ih (base + size / 2) (size - size / 2) (by omega) (by omega) (by omega)
          · intro j hj hjlen
            exact h4 j (by omega) hjlen
          · exact Or.inr (le_of_not_lt hcmp)
      · simp only [if_neg hgt]
        have hsz : size = 1 := by omega
        subst hsz
        exact binarySearchFinish_spec keys target base (by omega)
          (fun j hj hjlen => h4 j (by omega) hjlen) h5

theorem binarySearch_spec (keys : List Nat) (target : Nat)
    (hs : ∀ i j : Nat, i ≤ j → j < keys.length →
      keys.getD i 0 ≤ keys.getD j 0)
    (hne : keys.length ≠ 0) :
    (∀ i, binarySearch keys target = Sum.inl i →
        i < keys.length ∧ keys.getD i 0 = target ∧
          ∀ j, i < j → j < keys.length → target < keys.getD j 0) ∧
    (∀ i, binarySearch keys target = Sum.inr i →
        i ≤ keys.length ∧
        (∀ j, i ≤ j → j < keys.length → target < keys.getD j 0) ∧
        (i = 0 ∨ keys.getD (i - 1) 0 < target)) := by
  unfold binarySearch
  simp only [if_neg hne]
  exact binarySearchLoop_spec keys target hs keys.length 0 keys.length
    (by omega) le_rfl (by omega) (by intro j hj hjlen; omega) (Or.inl rfl)

/-! ### Children iterator lemmas -/

theorem xor_toggle (f : Bool) (n : Nat) :
    Bool.xor (!f) (decide (n % 2 = 1)) = Bool.xor f (decide ((n + 1) % 2 = 1)) := by
  rcases Nat.mod_two_eq_zero_or_one n with h | h <;>
    cases f <;> simp [h, Nat.add_mod]

theorem not_parity (n : Nat) :
    (!decide (n % 2 = 0)) = decide ((n + 1) % 2 = 0) := by
  rcases Nat.mod_two_eq_zero_or_one n with h | h <;> simp [h, Nat.add_mod]

theorem readSeq_append (a b : List Slot) (f : Bool) :
    readSeq f (a ++ b) = readSeq f a ++ readSeq (f ^^ decide (a.length % 2 = 1)) b := by
  induction a generalizing f with
  | nil => simp [readSeq]
  | cons x a' ih =>
      simp only [List.cons_append, readSeq, List.length_cons, List.append_eq]
      rw [ih (!f), xor_toggle]

theorem readSeq_length (slots : List Slot) (f : Bool) :
    (readSeq f slots).length = slots.length := by
  induction slots generalizing f with
  | nil => rfl
  | cons x rest ih => simp [readSeq, ih]

theorem toListBack_eq_reverse (slots : List Slot) (f : Bool) :
    Children.toListBack { slots := slots, fullAlign := f } = (readSeq f slots).reverse := by
  induction slots using List.reverseRecOn with
  | nil => simp [Children.toListBack, readSeq]
  | append_singleton a x ih =>
      rw [Children.toListBack]
      have hne : a ++ [x] ≠ [] := by simp
      simp only [hne, dite_false, List.getLast_concat, List.dropLast_concat,
        List.length_append, List.length_singleton]
      rw [ih]
      rw [readSeq_append a [x] f]
      simp only [readSeq, List.reverse_append, List.reverse_cons, List.reverse_nil]
      simp [Nat.add_sub_cancel]

theorem readSeq_writerSlots (children : List (Ptr × Nat)) (startLen startOff : Nat) :
    readSeq (decide (startLen % 2 = 0)) (writerSlots startLen startOff children)
      = children.map fun c => some c.1 := by
  induction children generalizing startLen startOff with
  | nil => simp [writerSlots, readSeq]
  | cons c rest ih =>
      simp only [writerSlots, readSeq, List.map_cons, List.cons.injEq]
      refine ⟨by simp [Slot.readPtrAs, Slot.readAs], ?_⟩
      rw [not_parity]
      exact ih (startLen + 1) (startOff + c.2)

/-! ### Builder interning lemmas -/

theorem token_new_text (k : Kind) (s : String) : (Token.new k s).text = some s := by
  simp [Token.new, Token.text, Token.isThunk, TokenRaw.rawLen]

theorem token_new_isThunk (k : Kind) (s : String) : (Token.new k s).isThunk = false := by
  simp [Token.new, Token.isThunk, TokenRaw.rawLen]

theorem text_some_not_thunk (t : Token) (s : String) (h : t.text = some s) :
    t.isThunk = false := by
  cases hth : t.isThunk with
  | false => rfl
  | true => simp [Token.text, hth] at h

/-- After `Builder::token`, the token pool maps `(kind, text)` to the
returned handle. -/
theorem lookupToken_after_token (b : Builder) (k : Kind) (s : String) :
    ((b.token k s).2.2).lookupToken k s = some ((b.token k s).1, (b.token k s).2.1) := by
  cases hlk : b.lookupToken k s with
  | some e =>
      obtain ⟨id, t⟩ := e
      have ht : b.token k s = (id, t, b) := by
        unfold Builder.token
        rw [hlk]
      rw [ht]
      exact hlk
  | none =>
      have ht : b.token k s =
          (b.nextId, Token.new k s,
            { b with nextId := b.nextId + 1, tokens := (b.nextId, Token.new k s) :: b.tokens }) := by
        unfold Builder.token
        rw [hlk]
      rw [ht]
      show Builder.lookupToken _ k s = some (b.nextId, Token.new k s)
      unfold Builder.lookupToken
      rw [List.find?_cons_of_pos]
      exact decide_eq_true ⟨rfl, token_new_text k s⟩

/-- Interning a token preserves every existing token-pool binding. -/
theorem lookupToken_preserved (b : Builder) (k : Kind) (s : String)
    (k' : Kind) (s' : String) (e : Nat × Token)
    (h : b.lookupToken k s = some e) :
    ((b.token k' s').2.2).lookupToken k s = some e := by
  cases hlk : b.lookupToken k' s' with
  | some e' =>
      obtain ⟨id, t⟩ := e'
      have ht : b.token k' s' = (id, t, b) := by
        unfold Builder.token
        rw [hlk]
      rw [ht]
      exact h
  | none =>
      by_cases hsame : k' = k ∧ s' = s
      · obtain ⟨hk, hs⟩ := hsame
        subst hk
        subst hs
        rw [h] at hlk
        cases hlk
      · have ht : b.token k' s' =
            (b.nextId, Token.new k' s',
              { b with nextId := b.nextId + 1,
                       tokens := (b.nextId, Token.new k' s') :: b.tokens }) := by
          unfold Builder.token
          rw [hlk]
        rw [ht]
        show Builder.lookupToken _ k s = some e
        unfold Builder.lookupToken at h ⊢
        rw [List.find?_cons_of_neg]
        · exact h
        · simp only [decide_eq_true_eq, not_and]
          intro hk hs
          rw [token_new_text] at hs
          exact absurd ⟨by simpa [Token.new] using hk, by simpa using hs⟩ hsame

/-- Interning any sequence of tokens preserves every existing token-pool
binding. -/
theorem lookupToken_preserved_foldl (ops : List (Kind × String)) (k : Kind) (s : String)
    (e : Nat × Token) :
    ∀ b : Builder, b.lookupToken k s = some e →
      (ops.foldl (fun acc op => (acc.token op.1 op.2).2.2) b).lookupToken k s = some e := by
  induction ops with
  | nil => intro b h; exact h
  | cons op rest ih =>
      intro b h
      exact ih _ (lookupToken_preserved b k s op.1 op.2 e h)

theorem writerSlots_ptrs (startLen : Nat) (startOff : TextSize)
    (cs : List (Ptr × Nat)) :
    (writerSlots startLen startOff cs).map Slot.ptr = cs.map Prod.fst := by
  induction cs generalizing startLen startOff with
  | nil => rfl
  | cons c rest ih => simp [writerSlots, ih]

theorem node_new_kind (kind : Kind) (cs : List (Ptr × Nat)) :
    (Node.new kind cs).kind = kind := by
  simp [Node.new]

theorem node_new_ptrs (kind : Kind) (cs : List (Ptr × Nat)) :
    (Node.new kind cs).slots.map Slot.ptr = cs.map Prod.fst := by
  simp [Node.new, foldl_push_spec, ChildrenWriter.empty, writerSlots_ptrs]

theorem builder_node_key (b : Builder) (kind : Kind) (cs : List Ptr) :
    (Node.new kind (cs.map fun p => (p, b.lenOf p))).slots.map Slot.ptr = cs := by
  rw [node_new_ptrs, List.map_map]
  simp [Function.comp_def]

/-! ### Garbage collector lemmas -/

theorem exists_max_nat (l : List Nat) (h : l ≠ []) : ∃ m ∈ l, ∀ i ∈ l, i ≤ m := by
  have hpos : 0 < l.length := List.length_pos.mpr h
  refine ⟨l.maximum_of_length_pos hpos, List.maximum_of_length_pos_mem hpos, ?_⟩
  intro i hi
  exact List.le_maximum_of_length_pos_of_mem hi hpos

theorem pool_wf_parts (p : Pool) (hwf : p.wf = true) :
    (∀ j c, c ∈ p.childrenOf j → c < j) ∧
    p.nodes.Nodup ∧ (∀ i ∈ p.nodes, p.isNodeAt i = true) ∧
    p.tokens.Nodup ∧ (∀ i ∈ p.tokens, p.isTokenAt i = true) := by
  unfold Pool.wf at hwf
  simp only [Bool.and_eq_true, decide_eq_true_eq, List.all_eq_true, List.mem_range] at hwf
  obtain ⟨⟨⟨⟨h1, h2⟩, h3⟩, h4⟩, h5⟩ := hwf
  refine ⟨?_, h2, fun i hi => h3 i hi, h4, fun i hi => h5 i hi⟩
  intro j c hc
  unfold Pool.childrenOf at hc
  by_cases hj : j < p.objs.length
  · have hbelow := h1 j hj
    cases hobj : p.objs.getD j Obj.tokenObj with
    | tokenObj =>
        rw [hobj] at hc
        simp at hc
    | nodeObj cs =>
        rw [hobj] at hc
        rw [hobj] at hbelow
        unfold Obj.childrenBelow at hbelow
        rw [List.all_eq_true] at hbelow
        simpa using hbelow c hc
  · rw [List.getD_eq_getElem?_getD, List.getElem?_eq_none (by omega)] at hc
    simp at hc

theorem noExternal_extOf (p : Pool) (h : p.noExternal = true) (i : Nat) :
    p.extOf i = 0 := by
  unfold Pool.noExternal at h
  rw [List.all_eq_true] at h
  unfold Pool.extOf
  rw [List.getD_eq_getElem?_getD]
  cases hh : p.ext[i]? with
  | none => rfl
  | some x =>
      have hm := List.getElem?_mem hh
      have hx := h x hm
      simp only [decide_eq_true_eq] at hx
      simp [hx]

theorem not_node_and_token (p : Pool) (i : Nat)
    (hn : p.isNodeAt i = true) (ht : p.isTokenAt i = true) : False := by
  unfold Pool.isNodeAt at hn
  unfold Pool.isTokenAt at ht
  cases hh : p.objs.get? i with
  | none =>
      rw [hh] at hn
      simp at hn
  | some o =>
      rw [hh] at hn ht
      cases o with
      | tokenObj => simp at hn
      | nodeObj cs => simp at ht

theorem contains_child_isNode (p : Pool) (j c : Nat)
    (h : (p.childrenOf j).contains c = true) : p.isNodeAt j = true := by
  unfold Pool.childrenOf at h
  unfold Pool.isNodeAt
  rw [List.getD_eq_getElem?_getD] at h
  cases hh : p.objs[j]? with
  | none =>
      rw [hh] at h
      simp at h
  | some o =>
      rw [hh] at h
      cases o with
      | tokenObj => simp at h
      | nodeObj cs =>
          rw [List.get?_eq_getElem?, hh]

theorem mem_child_isNode (p : Pool) (j c : Nat) (h : c ∈ p.childrenOf j) :
    p.isNodeAt j = true :=
  contains_child_isNode p j c (by simpa using h)

theorem isRoot_node_mem (p : Pool) (hext : p.noExternal = true)
    (htokens : ∀ i ∈ p.tokens, p.isTokenAt i = true)
    (j : Nat) (hroot : p.isRoot j = true) (hnode : p.isNodeAt j = true) :
    ∃ i ∈ p.nodes, j ≤ i := by
  unfold Pool.isRoot at hroot
  simp only [Bool.or_eq_true, decide_eq_true_eq] at hroot
  rcases hroot with (h | h) | h
  · exact ⟨j, by simpa using h, le_refl j⟩
  · exact absurd (not_node_and_token p j hnode (htokens j (by simpa using h))) not_false
  · rw [noExternal_extOf p hext j] at h
    omega

theorem aliveFuel_node_bounded (p : Pool) (hwf : p.wf = true) (hext : p.noExternal = true) :
    ∀ fuel j, p.aliveFuel fuel j = true → p.isNodeAt j = true →
      ∃ i ∈ p.nodes, j ≤ i := by
  obtain ⟨_, _, _, _, htokens⟩ := pool_wf_parts p hwf
  intro fuel
  induction fuel with
  | zero =>
      intro j halive hnode
      rw [Pool.aliveFuel] at halive
      exact isRoot_node_mem p hext htokens j halive hnode
  | succ fuel ih =>
      intro j halive hnode
      rw [Pool.aliveFuel] at halive
      rw [Bool.or_eq_true] at halive
      rcases halive with hroot | hany
      · exact isRoot_node_mem p hext htokens j hroot hnode
      · rw [List.any_eq_true] at hany
        obtain ⟨d, _, hconj⟩ := hany
        rw [Bool.and_eq_true] at hconj
        obtain ⟨halive', hcont⟩ := hconj
        obtain ⟨i, hi, hle⟩ := ih (j + 1 + d) halive' (contains_child_isNode p _ j hcont)
        exact ⟨i, hi, by omega⟩

theorem strongCount_eq_one_of_max (p : Pool) (hwf : p.wf = true)
    (hext : p.noExternal = true) (m : Nat) (hm : m ∈ p.nodes)
    (hmax : ∀ i ∈ p.nodes, i ≤ m) : p.strongCount m = 1 := by
  obtain ⟨hchild, hnodup, hnodes, htokdup, htokens⟩ := pool_wf_parts p hwf
  unfold Pool.strongCount
  rw [noExternal_extOf p hext m, List.count_eq_one_of_mem hnodup hm]
  have htok0 : p.tokens.count m = 0 := by
    rw [List.count_eq_zero]
    intro hmem
    exact not_node_and_token p m (hnodes m hm) (htokens m hmem)
  rw [htok0]
  have hsum : ((List.range p.objs.length).map fun j =>
      if p.alive j then (p.childrenOf j).count m else 0).sum = 0 := by
    apply List.sum_eq_zero
    intro x hx
    rw [List.mem_map] at hx
    obtain ⟨j, _, rfl⟩ := hx
    by_cases ha : p.alive j = true
    · rw [if_pos ha]
      by_cases hc : (p.childrenOf j).count m = 0
      · exact hc
      · exfalso
        have hmem : m ∈ p.childrenOf j := List.count_pos_iff.mp (by omega)
        have hjnode : p.isNodeAt j = true := mem_child_isNode p j m hmem
        have hlt : m < j := hchild j m hmem
        unfold Pool.alive at ha
        obtain ⟨i, hi, hle⟩ := aliveFuel_node_bounded p hwf hext p.objs.length j ha hjnode
        have := hmax i hi
        omega
    · rw [if_neg ha]
  rw [hsum]

theorem nodes_filter_shrinks (p : Pool) (hwf : p.wf = true)
    (hext : p.noExternal = true) (hne : p.nodes ≠ []) :
    (p.nodes.filter fun id => decide (1 < p.strongCount id)).length < p.nodes.length := by
  obtain ⟨m, hm, hmax⟩ := exists_max_nat p.nodes hne
  apply List.length_filter_lt_length_iff_exists.mpr
  refine ⟨m, hm, ?_⟩
  simp [strongCount_eq_one_of_max p hwf hext m hm hmax]

theorem wf_nodes_filter (p : Pool) (hwf : p.wf = true) (q : Nat → Bool) :
    Pool.wf { p with nodes := p.nodes.filter q } = true := by
  unfold Pool.wf at hwf ⊢
  simp only [Bool.and_eq_true] at hwf ⊢
  obtain ⟨⟨⟨⟨h1, h2⟩, h3⟩, h4⟩, h5⟩ := hwf
  refine ⟨⟨⟨⟨h1, ?_⟩, ?_⟩, h4⟩, h5⟩
  · rw [decide_eq_true_eq] at h2 ⊢
    exact h2.filter q
  · rw [List.all_eq_true] at h3 ⊢
    intro x hx
    exact h3 x (List.mem_of_mem_filter hx)

theorem gcNodesFuel_spec :
    ∀ fuel (p : Pool), p.wf = true → p.noExternal = true → p.nodes.length < fuel →
      (p.gcNodesFuel fuel).nodes = [] ∧ (p.gcNodesFuel fuel).objs = p.objs ∧
      (p.gcNodesFuel fuel).tokens = p.tokens ∧ (p.gcNodesFuel fuel).ext = p.ext ∧
      (p.gcNodesFuel fuel).wf = true := by
  intro fuel
  induction fuel with
  | zero =>
      intro p _ _ h
      omega
  | succ fuel ih =>
      intro p hwf hext hlt
      cases hch : (p.turnNodeGc).2 with
      | false =>
          have hnil : p.nodes = [] := by
            by_contra hne
            have hlen := nodes_filter_shrinks p hwf hext hne
            have : (p.turnNodeGc).2 = true := decide_eq_true (by omega)
            rw [this] at hch
            cases hch
          have hres : p.gcNodesFuel (fuel + 1) = (p.turnNodeGc).1 := by
            rw [Pool.gcNodesFuel, hch]
            rfl
          rw [hres]
          have hnodes1 : (p.turnNodeGc).1.nodes = [] := by
            show p.nodes.filter _ = []
            rw [hnil]
            rfl
          exact ⟨hnodes1, rfl, rfl, rfl, by
            have := wf_nodes_filter p hwf fun id => decide (1 < p.strongCount id)
            exact this⟩
      | true =>
          have hne : p.nodes ≠ [] := by
            intro h0
            have : (p.turnNodeGc).2 = false := by
              show decide _ = false
              rw [h0]
              simp
            rw [this] at hch
            cases hch
          have hres : p.gcNodesFuel (fuel + 1) = (p.turnNodeGc).1.gcNodesFuel fuel := by
            rw [Pool.gcNodesFuel, hch]
            rfl
          rw [hres]
          have hwf' : (p.turnNodeGc).1.wf = true :=
            wf_nodes_filter p hwf fun id => decide (1 < p.strongCount id)
          have hext' : (p.turnNodeGc).1.noExternal = true := hext
          have hlen : (p.turnNodeGc).1.nodes.length < fuel := by
            have := nodes_filter_shrinks p hwf hext hne
            show (p.nodes.filter _).length < fuel
            omega
          obtain ⟨r1, r2, r3, r4, r5⟩ := ih (p.turnNodeGc).1 hwf' hext' hlen
          exact ⟨r1, r2, r3, r4, r5⟩

theorem strongCount_token_one (p : Pool) (hwf : p.wf = true)
    (hext : p.noExternal = true) (hn : p.nodes = []) (t : Nat) (ht : t ∈ p.tokens) :
    p.strongCount t = 1 := by
  obtain ⟨_, _, _, htokdup, _⟩ := pool_wf_parts p hwf
  unfold Pool.strongCount
  rw [noExternal_extOf p hext t]
  have hc0 : p.nodes.count t = 0 := by
    rw [hn]
    rfl
  rw [hc0, List.count_eq_one_of_mem htokdup ht]
  have hsum : ((List.range p.objs.length).map fun j =>
      if p.alive j then (p.childrenOf j).count t else 0).sum = 0 := by
    apply List.sum_eq_zero
    intro x hx
    rw [List.mem_map] at hx
    obtain ⟨j, _, rfl⟩ := hx
    by_cases ha : p.alive j = true
    · rw [if_pos ha]
      by_cases hc : (p.childrenOf j).count t = 0
      · exact hc
      · exfalso
        have hmem : t ∈ p.childrenOf j := List.count_pos_iff.mp (by omega)
        have hjnode : p.isNodeAt j = true := mem_child_isNode p j t hmem
        unfold Pool.alive at ha
        obtain ⟨i, hi, _⟩ := aliveFuel_node_bounded p hwf hext p.objs.length j ha hjnode
        rw [hn] at hi
        simp at hi
    · rw [if_neg ha]
  rw [hsum]

/-! ### Serialization / deserialization lemmas -/

theorem builder_token_cases (b : Builder) (k : Kind) (s : String) :
    (∃ e, b.lookupToken k s = some e ∧ b.token k s = (e.1, e.2, b)) ∨
    (b.lookupToken k s = none ∧ b.token k s =
      (b.nextId, Token.new k s,
        { b with nextId := b.nextId + 1,
                 tokens := (b.nextId, Token.new k s) :: b.tokens })) := by
  cases hlk : b.lookupToken k s with
  | some e =>
      obtain ⟨id, t⟩ := e
      refine Or.inl ⟨(id, t), rfl, ?_⟩
      unfold Builder.token
      rw [hlk]
  | none =>
      refine Or.inr ⟨rfl, ?_⟩
      unfold Builder.token
      rw [hlk]

theorem builder_node_cases (b : Builder) (k : Kind) (cs : List Ptr) :
    (∃ e, b.lookupNode k cs = some e ∧ b.node k cs = (e.1, e.2, b)) ∨
    (b.lookupNode k cs = none ∧ b.node k cs =
      (b.nextId, Node.new k (cs.map fun p => (p, b.lenOf p)),
        { b with nextId := b.nextId + 1,
                 nodes := (b.nextId, Node.new k (cs.map fun p => (p, b.lenOf p)))
                    :: b.nodes })) := by
  cases hlk : b.lookupNode k cs with
  | some e =>
      obtain ⟨id, m⟩ := e
      refine Or.inl ⟨(id, m), rfl, ?_⟩
      unfold Builder.node Builder.cacheNode
      rw [node_new_kind, builder_node_key, hlk]
  | none =>
      refine Or.inr ⟨rfl, ?_⟩
      unfold Builder.node Builder.cacheNode
      rw [node_new_kind, builder_node_key, hlk]

theorem lookupNode_after_node (b : Builder) (k : Kind) (cs : List Ptr) :
    ((b.node k cs).2.2).lookupNode k cs = some ((b.node k cs).1, (b.node k cs).2.1) := by
  rcases builder_node_cases b k cs with ⟨e, hlk, heq⟩ | ⟨hlk, heq⟩
  · rw [heq]
    exact hlk
  · rw [heq]
    exact List.find?_cons_of_pos b.nodes
      (decide_eq_true ⟨node_new_kind k _, builder_node_key b k cs⟩)

theorem builderExt_refl (b : Builder) : BuilderExt b b :=
  ⟨fun _ _ _ h => h, fun _ _ _ h => h⟩

theorem builderExt_trans {a b c : Builder} (h1 : BuilderExt a b) (h2 : BuilderExt b c) :
    BuilderExt a c :=
  ⟨fun k s e h => h2.1 k s e (h1.1 k s e h), fun k cs e h => h2.2 k cs e (h1.2 k cs e h)⟩

theorem builderExt_token (b : Builder) (k : Kind) (s : String) :
    BuilderExt b (b.token k s).2.2 := by
  rcases builder_token_cases b k s with ⟨e, hlk, heq⟩ | ⟨hlk, heq⟩
  · rw [heq]
    exact builderExt_refl b
  · rw [heq]
    constructor
    · intro k' s' e' h
      by_cases hp : k = k' ∧ s = s'
      · obtain ⟨rfl, rfl⟩ := hp
        rw [h] at hlk
        cases hlk
      · have hstep := List.find?_cons_of_neg (l := b.tokens)
          (a := (b.nextId, Token.new k s))
          (p := fun e => decide (e.2.kind = k' ∧ e.2.text = some s')) (by
            simp only [decide_eq_true_eq, not_and]
            intro hk hs
            rw [token_new_text] at hs
            exact absurd ⟨by simpa [Token.new] using hk, by simpa using hs⟩ hp)
        exact hstep.trans h
    · intro k' cs' e' h
      exact h

theorem builderExt_node (b : Builder) (k : Kind) (cs : List Ptr) :
    BuilderExt b (b.node k cs).2.2 := by
  rcases builder_node_cases b k cs with ⟨e, hlk, heq⟩ | ⟨hlk, heq⟩
  · rw [heq]
    exact builderExt_refl b
  · rw [heq]
    constructor
    · intro k' s' e' h
      exact h
    · intro k' cs' e' h
      by_cases hp : k = k' ∧ cs = cs'
      · obtain ⟨rfl, rfl⟩ := hp
        rw [h] at hlk
        cases hlk
      · have hstep := List.find?_cons_of_neg (l := b.nodes)
          (a := (b.nextId, Node.new k (cs.map fun p => (p, b.lenOf p))))
          (p := fun e => decide (e.2.kind = k' ∧ e.2.slots.map Slot.ptr = cs')) (by
            simp only [decide_eq_true_eq, not_and]
            intro hk hcs
            rw [builder_node_key] at hcs
            exact absurd ⟨by rw [node_new_kind] at hk; exact hk, hcs⟩ hp)
        exact hstep.trans h

theorem find?_fst_nodup {α : Type} (l : List (Nat × α)) (id : Nat) (x : α)
    (hnd : (l.map Prod.fst).Nodup) (hm : (id, x) ∈ l) :
    l.find? (fun e => decide (e.1 = id)) = some (id, x) := by
  induction l with
  | nil => simp at hm
  | cons a rest ih =>
      rw [List.map_cons, List.nodup_cons] at hnd
      obtain ⟨hna, hnrest⟩ := hnd
      rcases List.mem_cons.mp hm with heq | hmem
      · rw [← heq]
        exact List.find?_cons_of_pos rest (by simp)
      · have hid : id ∈ rest.map Prod.fst := List.mem_map.mpr ⟨(id, x), hmem, rfl⟩
        have hne : a.1 ≠ id := fun h => hna (h ▸ hid)
        rw [List.find?_cons_of_neg]
        · exact ih hnrest hmem
        · simp [hne]

theorem wf_new : BuilderWF Builder.new :=
  ⟨fun e he => by simp [Builder.new] at he, by simp [Builder.new],
    fun e he => by simp [Builder.new] at he, by simp [Builder.new]⟩

theorem wf_token (b : Builder) (k : Kind) (s : String) (hwf : BuilderWF b) :
    BuilderWF (b.token k s).2.2 := by
  obtain ⟨ht1, ht2, hn1, hn2⟩ := hwf
  rcases builder_token_cases b k s with ⟨e, hlk, heq⟩ | ⟨hlk, heq⟩
  · rw [heq]
    exact ⟨ht1, ht2, hn1, hn2⟩
  · rw [heq]
    refine ⟨?_, ?_, ?_, hn2⟩
    · intro e' he'
      rcases List.mem_cons.mp he' with rfl | hm
      · show b.nextId < b.nextId + 1
        omega
      · have := ht1 e' hm
        show e'.1 < b.nextId + 1
        omega
    · show (((b.nextId, Token.new k s) :: b.tokens).map Prod.fst).Nodup
      rw [List.map_cons, List.nodup_cons]
      refine ⟨fun hmem => ?_, ht2⟩
      obtain ⟨e', he', hfst⟩ := List.mem_map.mp hmem
      have := ht1 e' he'
      omega
    · intro e' he'
      have := hn1 e' he'
      show e'.1 < b.nextId + 1
      omega

theorem wf_node (b : Builder) (k : Kind) (cs : List Ptr) (hwf : BuilderWF b) :
    BuilderWF (b.node k cs).2.2 := by
  obtain ⟨ht1, ht2, hn1, hn2⟩ := hwf
  rcases builder_node_cases b k cs with ⟨e, hlk, heq⟩ | ⟨hlk, heq⟩
  · rw [heq]
    exact ⟨ht1, ht2, hn1, hn2⟩
  · rw [heq]
    refine ⟨?_, ht2, ?_, ?_⟩
    · intro e' he'
      have := ht1 e' he'
      show e'.1 < b.nextId + 1
      omega
    · intro e' he'
      rcases List.mem_cons.mp he' with rfl | hm
      · show b.nextId < b.nextId + 1
        omega
      · have := hn1 e' hm
        show e'.1 < b.nextId + 1
        omega
    · show (((b.nextId, Node.new k (cs.map fun p => (p, b.lenOf p))) :: b.nodes).map
          Prod.fst).Nodup
      rw [List.map_cons, List.nodup_cons]
      refine ⟨fun hmem => ?_, hn2⟩
      obtain ⟨e', he', hfst⟩ := List.mem_map.mp hmem
      have := hn1 e' he'
      omega

theorem heapExt_refl (b : Builder) : HeapExt b b :=
  ⟨fun _ _ h => h, fun _ _ h => h⟩

theorem heapExt_trans {a b c : Builder} (h1 : HeapExt a b) (h2 : HeapExt b c) :
    HeapExt a c :=
  ⟨fun id e h => h2.1 id e (h1.1 id e h), fun id e h => h2.2 id e (h1.2 id e h)⟩

theorem heapExt_token (b : Builder) (k : Kind) (s : String) (hwf : BuilderWF b) :
    HeapExt b (b.token k s).2.2 := by
  obtain ⟨ht1, _, _, _⟩ := hwf
  rcases builder_token_cases b k s with ⟨e, hlk, heq⟩ | ⟨hlk, heq⟩
  · rw [heq]
    exact heapExt_refl b
  · rw [heq]
    constructor
    · intro id e' h
      have hmem := List.mem_of_find?_eq_some h
      have hpe := List.find?_some h
      rw [decide_eq_true_eq] at hpe
      have hlt := ht1 e' hmem
      have hstep := List.find?_cons_of_neg (l := b.tokens)
        (a := (b.nextId, Token.new k s)) (p := fun x => decide (x.1 = id)) (by
          simp only [decide_eq_true_eq]
          omega)
      exact hstep.trans h
    · intro id e' h
      exact h

theorem heapExt_node (b : Builder) (k : Kind) (cs : List Ptr) (hwf : BuilderWF b) :
    HeapExt b (b.node k cs).2.2 := by
  obtain ⟨_, _, hn1, _⟩ := hwf
  rcases builder_node_cases b k cs with ⟨e, hlk, heq⟩ | ⟨hlk, heq⟩
  · rw [heq]
    exact heapExt_refl b
  · rw [heq]
    constructor
    · intro id e' h
      exact h
    · intro id e' h
      have hmem := List.mem_of_find?_eq_some h
      have hpe := List.find?_some h
      rw [decide_eq_true_eq] at hpe
      have hlt := hn1 e' hmem
      have hstep := List.find?_cons_of_neg (l := b.nodes)
        (a := (b.nextId, Node.new k (cs.map fun p => (p, b.lenOf p))))
        (p := fun x => decide (x.1 = id)) (by
          simp only [decide_eq_true_eq]
          omega)
      exact hstep.trans h

mutual

/-- Deserialization is the direct build: `ElementSeed` routes a token
element to `Builder::token` and a node element's children buffer to
`Builder::node`, in the same left-to-right order as building the
construction by hand. -/
theorem deElement_eq : ∀ (s : SerTree) (b : Builder), deElement b s = buildSer b s
  | .token k s0, b => by
      simp only [deElement, buildSer]
  | .node k cs, b => by
      simp only [deElement, buildSer]
      rw [deChildren_eq cs b []]
      simp

theorem deChildren_eq : ∀ (cs : List SerTree) (b : Builder) (acc : List Ptr),
    deChildren b acc cs = (acc ++ (buildSerList b cs).1, (buildSerList b cs).2)
  | [], b, acc => by
      simp [deChildren, buildSerList]
  | t :: rest, b, acc => by
      simp only [deChildren, buildSerList]
      rw [deElement_eq t b, deChildren_eq rest (buildSer b t).2 (acc ++ [(buildSer b t).1])]
      simp

end

mutual

theorem buildSer_ext : ∀ (s : SerTree) (b : Builder), BuilderExt b (buildSer b s).2
  | .token k s0, b => by
      simp only [buildSer]
      exact builderExt_token b k s0
  | .node k cs, b => by
      simp only [buildSer]
      exact builderExt_trans (buildSerList_ext cs b) (builderExt_node _ k _)

theorem buildSerList_ext : ∀ (cs : List SerTree) (b : Builder),
    BuilderExt b (buildSerList b cs).2
  | [], b => by
      simp only [buildSerList]
      exact builderExt_refl b
  | t :: rest, b => by
      simp only [buildSerList]
      exact builderExt_trans (buildSer_ext t b) (buildSerList_ext rest (buildSer b t).2)

end

mutual

theorem buildSer_wfheap : ∀ (s : SerTree) (b : Builder), BuilderWF b →
    BuilderWF (buildSer b s).2 ∧ HeapExt b (buildSer b s).2
  | .token k s0, b, hwf => by
      simp only [buildSer]
      exact ⟨wf_token b k s0 hwf, heapExt_token b k s0 hwf⟩
  | .node k cs, b, hwf => by
      simp only [buildSer]
      obtain ⟨w1, h1⟩ := buildSerList_wfheap cs b hwf
      exact ⟨wf_node _ k _ w1, heapExt_trans h1 (heapExt_node _ k _ w1)⟩

theorem buildSerList_wfheap : ∀ (cs : List SerTree) (b : Builder), BuilderWF b →
    BuilderWF (buildSerList b cs).2 ∧ HeapExt b (buildSerList b cs).2
  | [], b, hwf => by
      simp only [buildSerList]
      exact ⟨hwf, heapExt_refl b⟩
  | t :: rest, b, hwf => by
      simp only [buildSerList]
      obtain ⟨w1, h1⟩ := buildSer_wfheap t b hwf
      obtain ⟨w2, h2⟩ := buildSerList_wfheap rest (buildSer b t).2 w1
      exact ⟨w2, heapExt_trans h1 h2⟩

end

mutual

theorem interned_mono : ∀ (s : SerTree) (p : Ptr) (b b' : Builder),
    Interned b s p → BuilderExt b b' → Interned b' s p
  | .token k s0, .token id, b, b', h, hext => by
      simp only [Interned] at h ⊢
      obtain ⟨t, hl⟩ := h
      exact ⟨t, hext.1 k s0 (id, t) hl⟩
  | .token _ _, .node _, b, b', h, hext => by
      simp only [Interned] at h
  | .node k cs, .node id, b, b', h, hext => by
      simp only [Interned] at h ⊢
      obtain ⟨ids, m, hIL, hl⟩ := h
      exact ⟨ids, m, internedList_mono cs ids b b' hIL hext, hext.2 k ids (id, m) hl⟩
  | .node _ _, .token _, b, b', h, hext => by
      simp only [Interned] at h

theorem internedList_mono : ∀ (cs : List SerTree) (ps : List Ptr) (b b' : Builder),
    InternedList b cs ps → BuilderExt b b' → InternedList b' cs ps
  | [], [], b, b', h, hext => by
      simp [InternedList]
  | [], _ :: _, b, b', h, hext => by
      simp only [InternedList] at h
  | _ :: _, [], b, b', h, hext => by
      simp only [InternedList] at h
  | t :: rest, p :: ps, b, b', h, hext => by
      simp only [InternedList] at h ⊢
      exact ⟨interned_mono t p b b' h.1 hext, internedList_mono rest ps b b' h.2 hext⟩

end

mutual

theorem buildSer_interned : ∀ (s : SerTree) (b : Builder),
    Interned (buildSer b s).2 s (buildSer b s).1
  | .token k s0, b => by
      simp only [buildSer, Interned]
      exact ⟨(b.token k s0).2.1, lookupToken_after_token b k s0⟩
  | .node k cs, b => by
      simp only [buildSer, Interned]
      refine ⟨(buildSerList b cs).1,
        ((buildSerList b cs).2.node k (buildSerList b cs).1).2.1, ?_, ?_⟩
      · exact internedList_mono cs _ _ _ (buildSerList_interned cs b)
          (builderExt_node _ k _)
      · exact lookupNode_after_node _ k _

theorem buildSerList_interned : ∀ (cs : List SerTree) (b : Builder),
    InternedList (buildSerList b cs).2 cs (buildSerList b cs).1
  | [], b => by
      simp [buildSerList, InternedList]
  | t :: rest, b => by
      simp only [buildSerList, InternedList]
      constructor
      · exact interned_mono t _ _ _ (buildSer_interned t b)
          (buildSerList_ext rest (buildSer b t).2)
      · exact buildSerList_interned rest (buildSer b t).2

end

mutual

/-- Once a construction is fully interned, building it again through the
same builder finds every part in the cache: it returns the cached handle
and leaves the builder unchanged. -/
theorem interned_stable : ∀ (s : SerTree) (p : Ptr) (b : Builder),
    Interned b s p → buildSer b s = (p, b)
  | .token k s0, .token id, b, h => by
      simp only [Interned] at h
      obtain ⟨t, hl⟩ := h
      simp only [buildSer]
      rcases builder_token_cases b k s0 with ⟨e, hlk, heq⟩ | ⟨hlk, heq⟩
      · rw [hlk] at hl
        injection hl with he
        subst he
        rw [heq]
      · rw [hlk] at hl
        cases hl
  | .token _ _, .node _, b, h => by
      simp only [Interned] at h
  | .node k cs, .node id, b, h => by
      simp only [Interned] at h
      obtain ⟨ids, m, hIL, hl⟩ := h
      have hlist := internedList_stable cs ids b hIL
      simp only [buildSer]
      rw [hlist]
      rcases builder_node_cases b k ids with ⟨e, hlk, heq⟩ | ⟨hlk, heq⟩
      · rw [hlk] at hl
        injection hl with he
        subst he
        rw [heq]
      · rw [hlk] at hl
        cases hl
  | .node _ _, .token _, b, h => by
      simp only [Interned] at h

theorem internedList_stable : ∀ (cs : List SerTree) (ps : List Ptr) (b : Builder),
    InternedList b cs ps → buildSerList b cs = (ps, b)
  | [], [], b, h => by
      simp [buildSerList]
  | [], _ :: _, b, h => by
      simp only [InternedList] at h
  | _ :: _, [], b, h => by
      simp only [InternedList] at h
  | t :: rest, p :: ps, b, h => by
      simp only [InternedList] at h
      simp only [buildSerList]
      rw [interned_stable t p b h.1]
      rw [internedList_stable rest ps b h.2]

end

mutual

/-- Serializing a tree built through a builder recovers exactly the
construction that was fed in: the serializer dereferences the returned
handle in (any heap extension of) the builder's pool and walks kinds,
children and token texts. -/
theorem serOf_roundtrip : ∀ (s : SerTree) (b : Builder), BuilderWF b →
    ∀ b2, HeapExt (buildSer b s).2 b2 → ∀ fuel, SerTree.height s ≤ fuel →
      serOfPtr b2 fuel (buildSer b s).1 = some s
  | .token k s0, b, hwf, b2, hh, fuel, hfuel => by
      cases fuel with
      | zero => simp [SerTree.height] at hfuel
      | succ f =>
          simp only [buildSer] at hh ⊢
          have hfind : ((b.token k s0).2.2).tokens.find?
              (fun x => decide (x.1 = (b.token k s0).1))
              = some ((b.token k s0).1, (b.token k s0).2.1) ∧
              (b.token k s0).2.1.kind = k ∧ (b.token k s0).2.1.text = some s0 := by
            rcases builder_token_cases b k s0 with ⟨e, hlk, heq⟩ | ⟨hlk, heq⟩
            · obtain ⟨ht1, ht2, _, _⟩ := hwf
              have hmem : e ∈ b.tokens := List.mem_of_find?_eq_some hlk
              have hpe := List.find?_some hlk
              rw [decide_eq_true_eq] at hpe
              rw [heq]
              exact ⟨find?_fst_nodup b.tokens e.1 e.2 ht2 hmem, hpe.1, hpe.2⟩
            · rw [heq]
              exact ⟨List.find?_cons_of_pos b.tokens (by simp), rfl, token_new_text k s0⟩
          obtain ⟨hf, hk, htxt⟩ := hfind
          have hf2 := hh.1 _ _ hf
          simp only [serOfPtr]
          simp [hf2, htxt, hk]
  | .node k cs, b, hwf, b2, hh, fuel, hfuel => by
      cases fuel with
      | zero => simp [SerTree.height] at hfuel
      | succ f =>
          have hfl : SerTree.heightList cs ≤ f := by
            simp only [SerTree.height] at hfuel
            omega
          obtain ⟨wL, hL⟩ := buildSerList_wfheap cs b hwf
          simp only [buildSer] at hh ⊢
          have hfind : (((buildSerList b cs).2.node k (buildSerList b cs).1).2.2).nodes.find?
              (fun x => decide (x.1 = ((buildSerList b cs).2.node k (buildSerList b cs).1).1))
              = some (((buildSerList b cs).2.node k (buildSerList b cs).1).1,
                  ((buildSerList b cs).2.node k (buildSerList b cs).1).2.1) ∧
              ((buildSerList b cs).2.node k (buildSerList b cs).1).2.1.kind = k ∧
              ((buildSerList b cs).2.node k (buildSerList b cs).1).2.1.slots.map Slot.ptr
                = (buildSerList b cs).1 := by
            rcases builder_node_cases (buildSerList b cs).2 k (buildSerList b cs).1 with
              ⟨e, hlk, heq⟩ | ⟨hlk, heq⟩
            · obtain ⟨_, _, _, hn2⟩ := wL
              have hmem : e ∈ (buildSerList b cs).2.nodes := List.mem_of_find?_eq_some hlk
              have hpe := List.find?_some hlk
              rw [decide_eq_true_eq] at hpe
              rw [heq]
              exact ⟨find?_fst_nodup (buildSerList b cs).2.nodes e.1 e.2 hn2 hmem,
                hpe.1, hpe.2⟩
            · rw [heq]
              exact ⟨List.find?_cons_of_pos (buildSerList b cs).2.nodes (by simp),
                node_new_kind k _, builder_node_key (buildSerList b cs).2 k _⟩
          obtain ⟨hf, hk, hptrs⟩ := hfind
          have hf2 := hh.2 _ _ hf
          have hchain : HeapExt (buildSerList b cs).2 b2 :=
            heapExt_trans (heapExt_node (buildSerList b cs).2 k (buildSerList b cs).1 wL) hh
          have hchildren := serChildren_roundtrip cs b hwf b2 hchain f hfl
          simp only [serOfPtr]
          simp [hf2, hptrs, hchildren, hk]

theorem serChildren_roundtrip : ∀ (cs : List SerTree) (b : Builder), BuilderWF b →
    ∀ b2, HeapExt (buildSerList b cs).2 b2 → ∀ fuel, SerTree.heightList cs ≤ fuel →
      serChildren b2 fuel (buildSerList b cs).1 = some cs
  | [], b, hwf, b2, hh, fuel, hfuel => by
      simp [buildSerList, serChildren]
  | t :: rest, b, hwf, b2, hh, fuel, hfuel => by
      simp only [buildSerList] at hh ⊢
      simp only [SerTree.heightList] at hfuel
      have hft : SerTree.height t ≤ fuel := le_trans (le_max_left _ _) hfuel
      have hfr : SerTree.heightList rest ≤ fuel := le_trans (le_max_right _ _) hfuel
      obtain ⟨w1, h1⟩ := buildSer_wfheap t b hwf
      obtain ⟨w2, h2⟩ := buildSerList_wfheap rest (buildSer b t).2 w1
      have hh1 : HeapExt (buildSer b t).2 b2 := heapExt_trans h2 hh
      have hs1 := serOf_roundtrip t b hwf b2 hh1 fuel hft
      have hs2 := serChildren_roundtrip rest (buildSer b t).2 w1 b2 hh fuel hfr
      simp only [serChildren]
      rw [hs1, hs2]

end

/-! ## Claim theorems -/

/-- C5. Every node produced by `Node::new` satisfies both structural
invariants: the stored `text_len` is the sum of the children's lengths,
and the offset stored in slot `i` is the sum of the lengths of children
`0..i` (the value cumulative summation would produce during iteration). -/
theorem node_construction_invariants (kind : Kind) (cs : List (Ptr × Nat))
    (hcount : cs.length ≤ 65535) :
    (Node.new kind cs).textLen = sumLens cs ∧
    ∀ i, i < cs.length →
      ((Node.new kind cs).slots.getD i { physFull := true, offset := 0, ptr := Ptr.token 0 }).offset
        = sumLens (cs.take i) := by
  refine ⟨node_new_textLen kind cs, ?_⟩
  intro i hi
  have hs := node_new_slots_get kind cs i hi
  rw [List.getD_eq_getElem?_getD, ← List.get?_eq_getElem?, hs]
  rfl

theorem node_construction_invariants_witness :
    ([((Ptr.token 0 : Ptr), 2), (Ptr.node 1, 3)] : List (Ptr × Nat)).length ≤ 65535 ∧
    ((Node.new ⟨7⟩ [(Ptr.token 0, 2), (Ptr.node 1, 3)]).textLen
        = sumLens [(Ptr.token 0, 2), (Ptr.node 1, 3)] ∧
      ∀ i, i < ([((Ptr.token 0 : Ptr), 2), (Ptr.node 1, 3)] : List (Ptr × Nat)).length →
        ((Node.new ⟨7⟩ [(Ptr.token 0, 2), (Ptr.node 1, 3)]).slots.getD i
            { physFull := true, offset := 0, ptr := Ptr.token 0 }).offset
          = sumLens ([(Ptr.token 0, 2), (Ptr.node 1, 3)].take i)) :=
  ⟨by decide, node_construction_invariants ⟨7⟩ [(Ptr.token 0, 2), (Ptr.node 1, 3)] (by decide)⟩

/-- C2. For every node `n` (built by `Node::new`) and every offset
`o < n.len()`, `n.index_of_offset(o)` returns an index `i` with
`children[i].offset <= o < children[i].offset + children[i].len()` — in
particular also when zero-length children share their stored offset with
their successor, because the pre-1.52 `binary_search` converges to the
last index of a run of equal keys. -/
theorem index_of_offset_containment (kind : Kind) (cs : List (Ptr × Nat)) (o : Nat)
    (h : o < (Node.new kind cs).len) :
    (Node.new kind cs).indexOfOffset o < cs.length ∧
    (Node.new kind cs).offsets.getD ((Node.new kind cs).indexOfOffset o) 0 ≤ o ∧
    o < (Node.new kind cs).offsets.getD ((Node.new kind cs).indexOfOffset o) 0
        + (cs.getD ((Node.new kind cs).indexOfOffset o) (Ptr.token 0, 0)).2 := by
  have hlen : (Node.new kind cs).offsets.length = cs.length :=
    node_new_offsets_length kind cs
  have htot : (Node.new kind cs).len = sumLens cs := node_new_textLen kind cs
  rw [htot] at h
  have hcs : cs.length ≠ 0 := by
    intro h0
    rw [List.length_eq_zero.mp h0] at h
    simp [sumLens] at h
  have hne : (Node.new kind cs).offsets.length ≠ 0 := by omega
  obtain ⟨hinl, hinr⟩ :=
    binarySearch_spec (Node.new kind cs).offsets o (node_new_offsets_sorted kind cs) hne
  have hgetD : ∀ i (hi : i < cs.length),
      (cs.getD i (Ptr.token 0, 0)).2 = (cs.get ⟨i, hi⟩).2 := by
    intro i hi
    rw [List.getD_eq_getElem?_getD, List.getElem?_eq_getElem hi]
    rfl
  cases hres : binarySearch (Node.new kind cs).offsets o with
  | inl i =>
      obtain ⟨hi, heq, hgt⟩ := hinl i hres
      rw [hlen] at hi
      have hidx : (Node.new kind cs).indexOfOffset o = i := by
        simp [Node.indexOfOffset, hres]
      rw [hidx]
      have hoff : (Node.new kind cs).offsets.getD i 0 = sumLens (cs.take i) :=
        node_new_offsets_getD kind cs i hi
      refine ⟨hi, by omega, ?_⟩
      have hsucc := sumLens_take_succ cs i hi
      rw [hoff, hgetD i hi]
      rcases Nat.lt_or_ge (i + 1) cs.length with hnext | hlast
      · have := hgt (i + 1) (by omega) (by rw [hlen]; omega)
        rw [node_new_offsets_getD kind cs (i + 1) hnext] at this
        omega
      · have htake : cs.take (i + 1) = cs := List.take_of_length_le hlast
        rw [htake] at hsucc
        omega
  | inr i =>
      obtain ⟨hile, hge, h0⟩ := hinr i hres
      rw [hlen] at hile
      have hzero : (Node.new kind cs).offsets.getD 0 0 = 0 := by
        rw [node_new_offsets_getD kind cs 0 (by omega)]
        simp [sumLens]
      have hipos : i ≠ 0 := by
        intro hi0
        subst hi0
        have := hge 0 le_rfl (by rw [hlen]; omega)
        omega
      have hidx : (Node.new kind cs).indexOfOffset o = i - 1 := by
        simp [Node.indexOfOffset, hres]
      rw [hidx]
      have hr : i - 1 < cs.length := by omega
      have hoff : (Node.new kind cs).offsets.getD (i - 1) 0 = sumLens (cs.take (i - 1)) :=
        node_new_offsets_getD kind cs (i - 1) hr
      have hle : (Node.new kind cs).offsets.getD (i - 1) 0 ≤ o := by
        rcases h0 with h0 | h0
        · omega
        · omega
      refine ⟨hr, hle, ?_⟩
      have hsucc := sumLens_take_succ cs (i - 1) hr
      have hstep : i - 1 + 1 = i := by omega
      rw [hstep] at hsucc
      rw [hoff, hgetD (i - 1) hr]
      rcases Nat.lt_or_ge i cs.length with hnext | hlast
      · have := hge i le_rfl (by rw [hlen]; omega)
        rw [node_new_offsets_getD kind cs i hnext] at this
        omega
      · have htake : cs.take i = cs := List.take_of_length_le hlast
        rw [htake] at hsucc
        omega

theorem index_of_offset_containment_witness :
    (5 : Nat) < (Node.new ⟨4⟩ [(Ptr.token 0, 5), (Ptr.token 1, 0), (Ptr.token 2, 3)]).len ∧
    ((Node.new ⟨4⟩ [(Ptr.token 0, 5), (Ptr.token 1, 0), (Ptr.token 2, 3)]).indexOfOffset 5
        < ([((Ptr.token 0 : Ptr), 5), (Ptr.token 1, 0), (Ptr.token 2, 3)] : List (Ptr × Nat)).length ∧
      (Node.new ⟨4⟩ [(Ptr.token 0, 5), (Ptr.token 1, 0), (Ptr.token 2, 3)]).offsets.getD
          ((Node.new ⟨4⟩ [(Ptr.token 0, 5), (Ptr.token 1, 0), (Ptr.token 2, 3)]).indexOfOffset 5) 0 ≤ 5 ∧
      5 < (Node.new ⟨4⟩ [(Ptr.token 0, 5), (Ptr.token 1, 0), (Ptr.token 2, 3)]).offsets.getD
          ((Node.new ⟨4⟩ [(Ptr.token 0, 5), (Ptr.token 1, 0), (Ptr.token 2, 3)]).indexOfOffset 5) 0
          + (([((Ptr.token 0 : Ptr), 5), (Ptr.token 1, 0), (Ptr.token 2, 3)] : List (Ptr × Nat)).getD
              ((Node.new ⟨4⟩ [(Ptr.token 0, 5), (Ptr.token 1, 0), (Ptr.token 2, 3)]).indexOfOffset 5)
              (Ptr.token 0, 0)).2) :=
  ⟨by decide,
    index_of_offset_containment ⟨4⟩ [(Ptr.token 0, 5), (Ptr.token 1, 0), (Ptr.token 2, 3)] 5
      (by decide)⟩

/-- C8. For every node `n` built by `Node::new`, the children iterator
is consistent across its access paths: the forward sequence equals the
reverse of the backward sequence; `count` equals `len`; `nth(k)` yields
the same item as `get(k)`; and the forward sequence is exactly the
sequence of stored child pointers (every slot is decoded at its correct
alignment — no access path ever mis-decodes a slot). -/
theorem children_iterator_consistency (kind : Kind) (cs : List (Ptr × Nat)) :
    (Children.new (Node.new kind cs)).toList
        = ((Children.new (Node.new kind cs)).toListBack).reverse ∧
    (Children.new (Node.new kind cs)).count = (Children.new (Node.new kind cs)).len ∧
    (∀ k, ((Children.new (Node.new kind cs)).nth k).1
        = (Children.new (Node.new kind cs)).get k) ∧
    (Children.new (Node.new kind cs)).toList = cs.map fun c => some c.1 := by
  refine ⟨?_, rfl, ?_, ?_⟩
  · simp only [Children.toList, Children.new]
    rw [toListBack_eq_reverse, List.reverse_reverse]
  · intro k
    cases h : (Children.new (Node.new kind cs)).slots[k]? <;>
      simp [Children.nth, Children.get, List.get?_eq_getElem?, h]
  · simp only [Children.toList, Children.new]
    have hsl : (Node.new kind cs).slots = writerSlots 0 0 cs := by
      simp [Node.new, foldl_push_spec, ChildrenWriter.empty]
    rw [hsl]
    have h0 := readSeq_writerSlots cs 0 0
    simpa using h0

/-- C3. For every builder `b`, kind `k` and string `s`, two calls
`b.token(k, s)` return pointer-equal handles (the same allocation id),
regardless of how many other tokens have been interned in between; the
second call also leaves the builder unchanged.  (The lookup is keyed on
`(kind, text)` content — `token.kind() == kind && token.text() == text` —
so the binding survives any number of other insertions.) -/
theorem token_interning_idempotent (b : Builder) (k : Kind) (s : String)
    (ops : List (Kind × String)) :
    ((ops.foldl (fun acc op => (acc.token op.1 op.2).2.2) (b.token k s).2.2).token k s).1
        = (b.token k s).1 ∧
    ((ops.foldl (fun acc op => (acc.token op.1 op.2).2.2) (b.token k s).2.2).token k s).2.2
        = ops.foldl (fun acc op => (acc.token op.1 op.2).2.2) (b.token k s).2.2 := by
  have h1 := lookupToken_after_token b k s
  have h2 := lookupToken_preserved_foldl ops k s ((b.token k s).1, (b.token k s).2.1)
    ((b.token k s).2.2) h1
  set pr := b.token k s with hpr
  set bb := ops.foldl (fun acc op => (acc.token op.1 op.2).2.2) pr.2.2 with hbb
  have h3 : bb.token k s = (pr.1, pr.2.1, bb) := by
    unfold Builder.token
    rw [h2]
  exact ⟨by rw [h3], by rw [h3]⟩

/-- C4. For every builder `b`, kind `k` and child handle list `cs`,
two calls `b.node(k, cs)` with pointer-identical children return
pointer-equal node handles, and `b.size()` does not increase on the
second call. -/
theorem node_interning_idempotent (b : Builder) (k : Kind) (cs : List Ptr) :
    (((b.node k cs).2.2).node k cs).1 = (b.node k cs).1 ∧
    Builder.size (((b.node k cs).2.2).node k cs).2.2 = Builder.size ((b.node k cs).2.2) := by
  have h1 : ((b.node k cs).2.2).lookupNode k cs = some ((b.node k cs).1, (b.node k cs).2.1) := by
    cases hlk : b.lookupNode k cs with
    | some e =>
        obtain ⟨id, m⟩ := e
        have ht : b.node k cs = (id, m, b) := by
          unfold Builder.node Builder.cacheNode
          rw [node_new_kind, builder_node_key, hlk]
        rw [ht]
        exact hlk
    | none =>
        have ht : b.node k cs =
            (b.nextId, Node.new k (cs.map fun p => (p, b.lenOf p)),
              { b with nextId := b.nextId + 1,
                       nodes := (b.nextId, Node.new k (cs.map fun p => (p, b.lenOf p)))
                          :: b.nodes }) := by
          unfold Builder.node Builder.cacheNode
          rw [node_new_kind, builder_node_key, hlk]
        rw [ht]
        show Builder.lookupNode _ k cs = _
        unfold Builder.lookupNode
        show List.find? _ ((b.nextId, Node.new k (cs.map fun p => (p, b.lenOf p)))
          :: b.nodes) = _
        rw [List.find?_cons_of_pos]
        exact decide_eq_true ⟨node_new_kind k _, builder_node_key b k cs⟩
  set pr := b.node k cs with hpr
  set bb := pr.2.2 with hbb
  have h3 : bb.node k cs = (pr.1, pr.2.1, bb) := by
    unfold Builder.node Builder.cacheNode
    rw [node_new_kind, builder_node_key, h1]
  exact ⟨by rw [h3], by rw [h3]⟩

/-- C10. Every token handed out by `Builder::token` (deserialization
also routes every token through `Builder::token`) is a non-thunk whose
`text()` is `Some` of the construction string: the pool only ever stores
tokens made by `Token::new`, and the `None` arm of `Token::text` — taken
when the stored byte length disagrees with `text_len` — is unreachable
because `Token::new_thunk` is never called. -/
theorem builder_token_text (b : Builder) (k : Kind) (s : String)
    (h : s.utf8ByteSize < 2 ^ 32) :
    (b.token k s).2.1.text = some s ∧ (b.token k s).2.1.isThunk = false := by
  cases hlk : b.lookupToken k s with
  | some e =>
      obtain ⟨id, t⟩ := e
      have ht : b.token k s = (id, t, b) := by
        unfold Builder.token
        rw [hlk]
      have hfind : b.tokens.find? (fun e => decide (e.2.kind = k ∧ e.2.text = some s))
          = some (id, t) := hlk
      have hp := List.find?_some hfind
      rw [decide_eq_true_eq] at hp
      rw [ht]
      exact ⟨hp.2, text_some_not_thunk t s hp.2⟩
  | none =>
      have ht : b.token k s =
          (b.nextId, Token.new k s,
            { b with nextId := b.nextId + 1, tokens := (b.nextId, Token.new k s) :: b.tokens }) := by
        unfold Builder.token
        rw [hlk]
      rw [ht]
      exact ⟨token_new_text k s, token_new_isThunk k s⟩

theorem builder_token_text_witness :
    "a".utf8ByteSize < 2 ^ 32 ∧
    ((Builder.new.token ⟨0⟩ "a").2.1.text = some "a" ∧
      (Builder.new.token ⟨0⟩ "a").2.1.isThunk = false) :=
  ⟨by decide, builder_token_text Builder.new ⟨0⟩ "a" (by decide)⟩

/-- C1 (evaluation at the failing input).  Claimed: after
`finish_node_at(c)` the elements that were at positions `c..len` of the
child buffer appear in the parent branch AFTER the newly created node.
The code instead appends the new node at the end of the buffer, after the
shifted tail.  Here: `start_node(Kind 0); token(Kind 1, "x");
checkpoint (= 1); token(Kind 2, "y"); finish_node_at(checkpoint)` leaves
the branch as `[token "y", node]` — the tail token `"y"` (id 1) comes
BEFORE the new node (id 2) — while the new node does wrap exactly the
elements `first_child..checkpoint` (the token `"x"`, id 0). -/
theorem finish_node_at_eval :
    ((((TreeBuilder.new.startNode ⟨0⟩).token ⟨1⟩ "x").token ⟨2⟩ "y").finishNodeAt
        (((TreeBuilder.new.startNode ⟨0⟩).token ⟨1⟩ "x").checkpoint)).map
        (fun tb => (tb.children, tb.cache.nodes.map fun e => (e.1, e.2.slots.map Slot.ptr)))
      = some ([Ptr.token 1, Ptr.node 2], [(2, [Ptr.token 0])]) := by
  rfl

/-- C9 (evaluation at the failing input).  Claimed: when the fallible
children iterator of `Node::try_new` yields an error, the constructor
propagates exactly that error AND releases every child already written
(each via its alignment arm).  The error is propagated exactly (here
`42`), but the cleanup — `ChildrenWriter`'s `Drop`, a `drop_in_place` over
`[Element]` where `Element` is a `union` with no `Drop` impl and hence no
drop glue — releases no child handle: the already-written child
(`Ptr.token 7`) is leaked instead of being released. -/
theorem try_new_eval :
    Node.tryNew (E := Nat) ⟨0⟩ [Except.ok (Ptr.token 7, 1), Except.error 42]
      = (Except.error 42, ([] : List Ptr)) := by
  rfl

/-- C6. For every well-formed builder pool state in which every handle
the builder handed out has been dropped (no external strong references
remain), `gc()` — node sweeps iterated to a fixed point, then a single
token sweep — leaves `size() == 0`. -/
theorem gc_empties_pool (p : Pool) (hwf : p.wf = true) (hext : p.noExternal = true) :
    (p.gc).size = 0 := by
  unfold Pool.gc Pool.gcNodes
  obtain ⟨hn, _, _, hex, hwf'⟩ :=
    gcNodesFuel_spec (p.nodes.length + 1) p hwf hext (by omega)
  set q := p.gcNodesFuel (p.nodes.length + 1) with hq
  have hext' : q.noExternal = true := by
    unfold Pool.noExternal
    rw [hex]
    exact hext
  have hkeep : q.tokens.filter (fun id => decide (1 < q.strongCount id)) = [] := by
    rw [List.filter_eq_nil_iff]
    intro t htmem
    simp [strongCount_token_one q hwf' hext' hn t htmem]
  show q.nodes.length + (q.tokens.filter _).length = 0
  rw [hn, hkeep]
  rfl

theorem gc_empties_pool_witness :
    Pool.wf ⟨[Obj.tokenObj, Obj.nodeObj [0], Obj.nodeObj [1]], [1, 2], [0], []⟩ = true ∧
    Pool.noExternal ⟨[Obj.tokenObj, Obj.nodeObj [0], Obj.nodeObj [1]], [1, 2], [0], []⟩ = true ∧
    (Pool.gc ⟨[Obj.tokenObj, Obj.nodeObj [0], Obj.nodeObj [1]], [1, 2], [0], []⟩).size = 0 :=
  ⟨by decide, by decide,
    gc_empties_pool ⟨[Obj.tokenObj, Obj.nodeObj [0], Obj.nodeObj [1]], [1, 2], [0], []⟩
      (by decide) (by decide)⟩

/-- C7. Round trip through serialization: for every construction `s`,
(1) a tree built through a fresh builder serializes back to exactly `s`;
(2) deserializing `s` routes every leaf and subtree through the builder —
it is the same function as feeding the construction directly through the
builder; and (3) after deserializing `s` through a fresh builder, feeding
the same construction directly through that same builder yields a
pointer-equal handle and leaves the builder unchanged (equal parts share
storage). -/
theorem serde_roundtrip (s : SerTree) :
    serOfPtr (buildSer Builder.new s).2 (SerTree.height s) (buildSer Builder.new s).1
        = some s ∧
    deElement Builder.new s = buildSer Builder.new s ∧
    buildSer (deElement Builder.new s).2 s
      = ((deElement Builder.new s).1, (deElement Builder.new s).2) := by
  refine ⟨?_, deElement_eq s Builder.new, ?_⟩
  · exact serOf_roundtrip s Builder.new wf_new _ (heapExt_refl _) _ le_rfl
  · rw [deElement_eq s Builder.new]
    exact interned_stable s _ _ (buildSer_interned s Builder.new)

end Sorbus
